import Mathlib

/-!
Verification of the OrbitOps orchestrator (`src/orchestrator.py`) against its
natural-language specification.  The Python orchestrator is shallowly embedded:
Python dicts become association lists (`List (String × _)`) with the same
insertion-order/overwrite semantics, raised exceptions become `Except.error`,
and async execution of agents is modelled by a pure environment function
`Env.process : String → Dict → AgentResult` (one deterministic behaviour per
registered agent id).
-/

set_option maxHeartbeats 1000000

namespace OrbitOps

/-- Payload values stored in agent result dictionaries (Python `Any`,
restricted to a concrete executable universe). -/
inductive PyVal where
  | nat (n : Nat)
  | str (s : String)
  | bool (b : Bool)
deriving DecidableEq, Repr

/-- A Python dict with string keys, as an insertion-ordered association list. -/
abbrev Dict := List (String × PyVal)

/-- Python `d[k] = v`: overwrite in place if the key exists, else append. -/
def dictInsert {β : Type} : List (String × β) → String → β → List (String × β)
  | [], k, v => [(k, v)]
  | (k', v') :: t, k, v => if k' = k then (k, v) :: t else (k', v') :: dictInsert t k v

/-- Python `m.update(d)`: insert every entry of `d` into `m`, in order. -/
def dictUpdate {β : Type} (m d : List (String × β)) : List (String × β) :=
  d.foldl (fun acc p => dictInsert acc p.1 p.2) m

/-- `AgentStatus` from `agents/base_agent.py`. -/
inductive AgentStatus where
  | IDLE
  | PROCESSING
  | COMPLETED
  | ERROR
deriving DecidableEq, Repr

/-- `WorkflowStatus` from `orchestrator.py`. -/
inductive WorkflowStatus where
  | PENDING
  | RUNNING
  | COMPLETED
  | FAILED
  | PAUSED
deriving DecidableEq, Repr

/-- `AgentResult` from `agents/base_agent.py`. -/
structure AgentResult where
  success : Bool
  data : Option Dict
  error : Option String
  metadata : Option Dict
deriving DecidableEq, Repr

/-- `AgentTask` from `orchestrator.py` (the `agent` object reference is
represented by its `agent_id`; the mutable agent status lives in `OState`). -/
structure AgentTask where
  agent_id : String
  dependencies : List String
  input_mapping : List (String × String)
deriving DecidableEq, Repr

/-- Data payload of an execution-log entry: either the input bundle of a
"starting" event or the `AgentResult` of a "completed" event. -/
inductive LogData where
  | input (d : Dict)
  | result (r : AgentResult)
deriving DecidableEq, Repr

/-- One entry of `Orchestrator.execution_log`.  The asyncio event-loop clock
is abstracted into an injected optional timestamp (`Env.clock`). -/
structure LogEntry where
  agent_id : String
  event : String
  data : LogData
  timestamp : Option Nat
deriving DecidableEq, Repr

/-- External behaviour consumed by the orchestrator: each registered agent's
`process` method (fully resolved, as guaranteed by the await), plus the
abstracted log clock. -/
structure Env where
  process : String → Dict → AgentResult
  clock : Option Nat

/-- The orchestrator's mutable state.  `agentStatus` models the `status` field
of every agent object (mutated in place through the shared reference);
`invoked` instruments which agent ids had `process` called during the current
`execute` run. -/
structure OState where
  agents : List String
  agentStatus : String → AgentStatus
  workflow : List AgentTask
  status : WorkflowStatus
  results : List (String × AgentResult)
  execution_log : List LogEntry
  invoked : List String

/-- `Orchestrator.register_agent`: keyed dict insert of the agent reference. -/
def registerAgent (st : OState) (agent_id : String) : OState :=
  { st with agents := if st.agents.contains agent_id then st.agents else st.agents ++ [agent_id] }

/-- `Orchestrator.add_task`: raises `ValueError` if the agent id is not
registered, else appends the task to the workflow. -/
def addTask (st : OState) (agent_id : String) (dependencies : List String)
    (input_mapping : List (String × String)) : Except String OState :=
  if st.agents.contains agent_id then
    .ok { st with workflow := st.workflow ++ [⟨agent_id, dependencies, input_mapping⟩] }
  else
    .error ("Agent " ++ agent_id ++ " not registered")

/-- Python `f"{e}"` applied to an `Optional[str]` error: `None` prints as
"None". -/
def showOptErr : Option String → String
  | none => "None"
  | some s => s

/-- Body of `Orchestrator._build_input_data`'s explicit-mapping branch: for
each (output_key, input_key) pair copy `d[output_key]` (when present) to
`acc[input_key]`. -/
def applyMapping (input_mapping : List (String × String)) (d : Dict) (acc : Dict) : Dict :=
  input_mapping.foldl
    (fun acc p =>
      match d.lookup p.1 with
      | some v => dictInsert acc p.2 v
      | none => acc)
    acc

/-- Loop of `Orchestrator._build_input_data` over the task's declared
dependencies, threading the accumulated input bundle. -/
def buildInputGo (input_mapping : List (String × String))
    (results : List (String × AgentResult)) : List String → Dict → Except String Dict
  | [], acc => .ok acc
  | dep :: ds, acc =>
    match results.lookup dep with
    | none => .error ("Dependency " ++ dep ++ " has no result")
    | some r =>
      if r.success = false then
        .error ("Dependency " ++ dep ++ " failed: " ++ showOptErr r.error)
      else
        match r.data with
        | some d =>
          if d.isEmpty then
            buildInputGo input_mapping results ds acc
          else if input_mapping.isEmpty then
            buildInputGo input_mapping results ds (dictUpdate acc d)
          else
            buildInputGo input_mapping results ds (applyMapping input_mapping d acc)
        | none => buildInputGo input_mapping results ds acc

/-- `Orchestrator._build_input_data` (raising = `Except.error`). -/
def buildInputData (task : AgentTask) (results : List (String × AgentResult)) :
    Except String Dict :=
  buildInputGo task.input_mapping results task.dependencies []

/-- Workflow agent ids, in declaration order (`task.agent_id for task in workflow`). -/
def idsOf (wf : List AgentTask) : List String := wf.map (·.agent_id)

/-- `next((t for t in self.workflow if t.agent_id == agent_id), None)`. -/
def findTaskW (wf : List AgentTask) (a : String) : Option AgentTask :=
  wf.find? (fun t => t.agent_id == a)

/-- First loop of `_validate_workflow`: the first declared dependency id that
does not name a task of the workflow, if any. -/
def findDangling (wf : List AgentTask) : List AgentTask → Option String
  | [] => none
  | t :: ts =>
    match t.dependencies.find? (fun d => !(idsOf wf).contains d) with
    | some d => some d
    | none => findDangling wf ts

/-- Bound used only for the termination measure of the cycle search: one more
than the longest dependency list of the workflow. -/
def maxDeps (wf : List AgentTask) : Nat :=
  wf.foldr (fun t m => max t.dependencies.length m) 0 + 1

theorem deps_lt_maxDeps {wf : List AgentTask} {t : AgentTask} (h : t ∈ wf) :
    t.dependencies.length < maxDeps wf := by
  unfold maxDeps
  have hle : t.dependencies.length ≤ wf.foldr (fun t m => max t.dependencies.length m) 0 := by
    induction wf with
    | nil => cases h
    | cons hd tl ih =>
      rcases List.mem_cons.mp h with h' | h'
      · subst h'
        simp only [List.foldr_cons, le_max_iff]
        exact Or.inl le_rfl
      · simp only [List.foldr_cons, le_max_iff]
        exact Or.inr (ih h')
  omega

theorem mem_ids_of_findTaskW {wf : List AgentTask} {a : String} {t : AgentTask}
    (h : findTaskW wf a = some t) : a ∈ (idsOf wf).toFinset := by
  have hmem : t ∈ wf := List.mem_of_find?_eq_some h
  have hpred := List.find?_some h
  simp only [beq_iff_eq] at hpred
  simp only [List.mem_toFinset, idsOf, List.mem_map]
  exact ⟨t, hmem, hpred⟩

theorem card_sdiff_insert_lt {ids path : Finset String} {a : String}
    (ha : a ∈ ids) (hnp : a ∉ path) :
    (ids \ insert a path).card < (ids \ path).card := by
  apply Finset.card_lt_card
  constructor
  · intro x hx
    simp only [Finset.mem_sdiff, Finset.mem_insert] at hx ⊢
    exact ⟨hx.1, fun h => hx.2 (Or.inr h)⟩
  · intro hsub
    have : a ∈ ids \ path := Finset.mem_sdiff.2 ⟨ha, hnp⟩
    have := hsub this
    simp at this

mutual

/-- `has_cycle` from `_validate_workflow`: depth-first search along the first
matching task's dependencies.  `path` is the (copied per branch) current
chain, `visited` the globally threaded visited set.  Returns the Python
boolean together with the updated visited set. -/
def hasCycle (wf : List AgentTask) (a : String) (path visited : Finset String) :
    Bool × Finset String :=
  if a ∈ path then (true, visited)
  else if a ∈ visited then (false, visited)
  else
    match h : findTaskW wf a with
    | none => (false, insert a visited)
    | some t => hasCycleList wf t.dependencies (insert a path) (insert a visited)
termination_by ((idsOf wf).toFinset \ path).card * maxDeps wf
decreasing_by
  -- into the dependency loop with a strictly larger path
  have ha := mem_ids_of_findTaskW h
  rename_i hnp _
  have hcard := card_sdiff_insert_lt ha hnp
  have hdep : t.dependencies.length < maxDeps wf :=
    deps_lt_maxDeps (List.mem_of_find?_eq_some h)
  have h1 : (((idsOf wf).toFinset \ insert a path).card + 1) * maxDeps wf ≤
      ((idsOf wf).toFinset \ path).card * maxDeps wf :=
    Nat.mul_le_mul_right _ hcard
  calc ((idsOf wf).toFinset \ insert a path).card * maxDeps wf + t.dependencies.length
      < ((idsOf wf).toFinset \ insert a path).card * maxDeps wf + maxDeps wf := by omega
    _ = (((idsOf wf).toFinset \ insert a path).card + 1) * maxDeps wf := by ring
    _ ≤ ((idsOf wf).toFinset \ path).card * maxDeps wf := h1

/-- The `for dep_id in task.dependencies` loop inside `has_cycle`, with the
Python early `return True` short-circuit. -/
def hasCycleList (wf : List AgentTask) (deps : List String) (path visited : Finset String) :
    Bool × Finset String :=
  match deps with
  | [] => (false, visited)
  | d :: ds =>
    let r := hasCycle wf d path visited
    if r.1 then (true, r.2) else hasCycleList wf ds path r.2
termination_by ((idsOf wf).toFinset \ path).card * maxDeps wf + deps.length
decreasing_by
  · simp only [List.length_cons]
    omega
  · simp only [List.length_cons]
    omega

end

/-- Second loop of `_validate_workflow`: run `has_cycle` from every task in
declaration order, threading `visited`; report the first task whose search
finds a cycle. -/
def cycleScan (wf : List AgentTask) : List AgentTask → Finset String → Option String
  | [], _ => none
  | t :: ts, visited =>
    let r := hasCycle wf t.agent_id ∅ visited
    if r.1 then some t.agent_id else cycleScan wf ts r.2

/-- `Orchestrator._validate_workflow`. -/
def validateWorkflow (wf : List AgentTask) : Bool × Option String :=
  match findDangling wf wf with
  | some d => (false, some ("Dependency " ++ d ++ " not found in workflow"))
  | none =>
    match cycleScan wf wf ∅ with
    | some a => (false, some ("Circular dependency detected involving " ++ a))
    | none => (true, none)

/-- `in_degree[dependent] -= 1` (Python ints, so `Int`, not truncated `Nat`
subtraction). -/
def decrDeg : List (String × Int) → String → List (String × Int)
  | [], _ => []
  | (k, v) :: t, d => if k = d then (k, v - 1) :: t else (k, v) :: decrDeg t d

/-- Termination measure helper: total positive in-degree mass. -/
def degSum (deg : List (String × Int)) : Nat :=
  (deg.map (fun p => p.2.toNat)).sum

/-- The `for dependent in graph[agent_id]` body of Kahn's algorithm: decrement
each dependent's in-degree and enqueue it when the degree reaches zero. -/
def processDeps : List String → List (String × Int) → List String →
    List (String × Int) × List String
  | [], deg, q => (deg, q)
  | d :: ds, deg, q =>
    let deg' := decrDeg deg d
    let q' := if deg'.lookup d = some 0 then q ++ [d] else q
    processDeps ds deg' q'

theorem degSum_decrDeg_le (deg : List (String × Int)) (d : String) :
    degSum (decrDeg deg d) ≤ degSum deg := by
  induction deg with
  | nil => simp [decrDeg]
  | cons p t ih =>
    obtain ⟨k, v⟩ := p
    by_cases hk : k = d
    · simp only [decrDeg, if_pos hk, degSum, List.map_cons, List.sum_cons]
      have : (v - 1).toNat ≤ v.toNat := by omega
      omega
    · simp only [decrDeg, if_neg hk, degSum, List.map_cons, List.sum_cons]
      have := ih
      simp only [degSum] at this
      omega

theorem degSum_decrDeg_lt (deg : List (String × Int)) (d : String)
    (h : (decrDeg deg d).lookup d = some 0) :
    degSum (decrDeg deg d) < degSum deg := by
  induction deg with
  | nil => simp [decrDeg, List.lookup] at h
  | cons p t ih =>
    obtain ⟨k, v⟩ := p
    by_cases hk : k = d
    · subst hk
      have hd : decrDeg ((k, v) :: t) k = (k, v - 1) :: t := by simp [decrDeg]
      rw [hd] at h ⊢
      have hv : v - 1 = 0 := by simpa [List.lookup] using h
      simp only [degSum, List.map_cons, List.sum_cons]
      omega
    · simp only [decrDeg, if_neg hk, List.lookup] at h ⊢
      have hne : (d == k) = false := by
        simp only [beq_eq_false_iff_ne, ne_eq]
        exact fun hdk => hk hdk.symm
      rw [hne] at h
      have := ih h
      simp only [degSum, List.map_cons, List.sum_cons]
      simp only [degSum] at this
      omega

theorem processDeps_measure (ds : List String) (deg : List (String × Int)) (q : List String) :
    degSum (processDeps ds deg q).1 + (processDeps ds deg q).2.length ≤
      degSum deg + q.length := by
  induction ds generalizing deg q with
  | nil => simp [processDeps]
  | cons d ds ih =>
    simp only [processDeps]
    by_cases hz : (decrDeg deg d).lookup d = some 0
    · simp only [if_pos hz]
      have h1 := degSum_decrDeg_lt deg d hz
      have h2 := ih (decrDeg deg d) (q ++ [d])
      simp only [List.length_append, List.length_cons, List.length_nil] at h2 ⊢
      omega
    · simp only [if_neg hz]
      have h1 := degSum_decrDeg_le deg d
      have h2 := ih (decrDeg deg d) q
      omega

/-- The `while queue` loop of `Orchestrator._topological_sort` (Kahn's
algorithm): FIFO pop from the front, append to the result, decrement
dependents. -/
def kahnLoop (graph : List (String × List String)) (deg : List (String × Int))
    (queue res : List String) : List String :=
  match queue with
  | [] => res
  | a :: rest =>
    let pr := processDeps ((graph.lookup a).getD []) deg rest
    kahnLoop graph pr.1 pr.2 (res ++ [a])
termination_by degSum deg + queue.length
decreasing_by
  have := processDeps_measure ((graph.lookup d).getD []) deg ds
  simp only [List.length_cons]
  omega

/-- `in_degree = {task.agent_id: len(task.dependencies) for task in workflow}`
(dict comprehension: later duplicate keys overwrite, first position kept). -/
def initDeg (wf : List AgentTask) : List (String × Int) :=
  wf.foldl (fun m t => dictInsert m t.agent_id (t.dependencies.length : Int)) []

/-- `graph = {task.agent_id: [] for task in workflow}`. -/
def initGraph (wf : List AgentTask) : List (String × List String) :=
  wf.foldl (fun m t => dictInsert m t.agent_id []) []

/-- The edge-building loop: `graph[dep].append(task.agent_id)` for every
declared dependency that is a key of `graph`. -/
def buildGraph (wf : List AgentTask) (g0 : List (String × List String)) :
    List (String × List String) :=
  wf.foldl
    (fun g t =>
      t.dependencies.foldl
        (fun g d =>
          if (g.lookup d).isSome then dictInsert g d (((g.lookup d).getD []) ++ [t.agent_id])
          else g)
        g)
    g0

/-- `Orchestrator._topological_sort` (raising = `Except.error`). -/
def topologicalSort (wf : List AgentTask) : Except String (List String) :=
  let deg := initDeg wf
  let graph := buildGraph wf (initGraph wf)
  let queue := deg.filterMap (fun p => if p.2 = 0 then some p.1 else none)
  let res := kahnLoop graph deg queue []
  if res.length = wf.length then .ok res
  else .error "Workflow has circular dependencies"

/-- `Orchestrator._log_execution` with the asyncio clock abstracted into the
environment. -/
def logExec (env : Env) (st : OState) (agent_id event : String) (d : LogData) : OState :=
  { st with execution_log := st.execution_log ++ [⟨agent_id, event, d, env.clock⟩] }

/-- The dictionary returned by `Orchestrator.execute`; absent keys of the
Python result dict are `none`. -/
structure ExecResult where
  status : String
  failed_at : Option String
  error : Option String
  results : List (String × AgentResult)
  execution_log : Option (List LogEntry)
deriving DecidableEq, Repr

/-- The state mutations of one loop iteration around the agent invocation:
log "starting", mark the agent processing (and record the invocation), mark it
completed or errored from the returned success flag, store the result, log
"completed". -/
def stepState (env : Env) (st : OState) (agent_id : String) (input_data : Dict)
    (r : AgentResult) : OState :=
  let st1 := logExec env st agent_id "starting" (.input input_data)
  let st2 := { st1 with
    agentStatus := fun x => if x = agent_id then .PROCESSING else st1.agentStatus x
    invoked := st1.invoked ++ [agent_id] }
  let st3 := { st2 with
    agentStatus := fun x =>
      if x = agent_id then (if r.success then .COMPLETED else .ERROR)
      else st2.agentStatus x }
  let st4 := { st3 with results := dictInsert st3.results agent_id r }
  logExec env st4 agent_id "completed" (.result r)

/-- The `for agent_id in execution_order` loop of `Orchestrator.execute`,
inside its `try`: any exception from dependency-result lookup or input
building is converted into a failed workflow result; a task result with
`success = False` halts the run fail-fast. -/
def runTasks (env : Env) : List String → OState → ExecResult × OState
  | [], st =>
    (⟨"completed", none, none, st.results, some st.execution_log⟩,
      { st with status := .COMPLETED })
  | agent_id :: rest, st =>
    match findTaskW st.workflow agent_id with
    | none =>
      (⟨"failed", none, some "", st.results, none⟩, { st with status := .FAILED })
    | some task =>
      match buildInputData task st.results with
      | .error e =>
        (⟨"failed", none, some e, st.results, none⟩, { st with status := .FAILED })
      | .ok input_data =>
        let r := env.process agent_id input_data
        let st5 := stepState env st agent_id input_data r
        if r.success then runTasks env rest st5
        else
          (⟨"failed", some agent_id, r.error, st5.results, none⟩,
            { st5 with status := .FAILED })

/-- `Orchestrator.execute`: validation (raising on failure), state reset,
seed-input storage under the reserved `"__initial__"` key, topological sort
(outside the `try`, so its `ValueError` propagates), then the task loop. -/
def execute (env : Env) (st : OState) (initial_input : Option Dict) :
    Except String ExecResult × OState :=
  let v := validateWorkflow st.workflow
  if v.1 then
    let st1 := { st with status := .RUNNING, results := [], execution_log := [], invoked := [] }
    let st2 :=
      match initial_input with
      | some d =>
        if d.isEmpty then st1
        else { st1 with results := dictInsert st1.results "__initial__" ⟨true, some d, none, none⟩ }
      | none => st1
    match topologicalSort st.workflow with
    | .error e => (.error e, st2)
    | .ok order =>
      let pr := runTasks env order st2
      (.ok pr.1, pr.2)
  else
    (.error ("Invalid workflow: " ++ showOptErr v.2), { st with status := .FAILED })

/-- `Orchestrator.get_status`. -/
def getStatus (st : OState) : WorkflowStatus := st.status

/-- `Orchestrator.reset`. -/
def reset (st : OState) : OState :=
  { st with
    status := .PENDING
    results := []
    execution_log := []
    agentStatus := fun x => if st.agents.contains x then .IDLE else st.agentStatus x }

/-! ### Association-list lemmas -/

/-- Left-biased choice on options (`a if a is not None else b`). -/
def optOr {α : Type} : Option α → Option α → Option α
  | some x, _ => some x
  | none, b => b

theorem optOr_none_right {α : Type} (a : Option α) : optOr a none = a := by
  cases a <;> rfl

theorem optOr_assoc {α : Type} (a b c : Option α) :
    optOr (optOr a b) c = optOr a (optOr b c) := by
  cases a <;> cases b <;> rfl

theorem lookup_dictInsert_self {β : Type} (m : List (String × β)) (k : String) (v : β) :
    (dictInsert m k v).lookup k = some v := by
  induction m with
  | nil => simp [dictInsert, List.lookup]
  | cons p t ih =>
    obtain ⟨k', v'⟩ := p
    by_cases h : k' = k
    · simp [dictInsert, h, List.lookup]
    · simp only [dictInsert, if_neg h, List.lookup]
      have : (k == k') = false := by simp [Ne.symm h]
      rw [this]
      exact ih

theorem lookup_dictInsert_ne {β : Type} (m : List (String × β)) (k k' : String) (v : β)
    (h : k' ≠ k) : (dictInsert m k v).lookup k' = m.lookup k' := by
  induction m with
  | nil =>
    have hb : (k' == k) = false := by simp [h]
    simp [dictInsert, List.lookup, hb]
  | cons p t ih =>
    obtain ⟨k0, v0⟩ := p
    by_cases h0 : k0 = k
    · subst h0
      have hb : (k' == k0) = false := by simp [h]
      simp [dictInsert, List.lookup, hb]
    · simp only [dictInsert, if_neg h0, List.lookup]
      by_cases hk : k' = k0
      · simp [hk]
      · have hb : (k' == k0) = false := by simp [hk]
        rw [hb]
        exact ih

theorem lookup_append_sx {β : Type} (l1 l2 : List (String × β)) (k : String) :
    (l1 ++ l2).lookup k = optOr (l1.lookup k) (l2.lookup k) := by
  induction l1 with
  | nil => simp [List.lookup, optOr]
  | cons p t ih =>
    obtain ⟨k0, v0⟩ := p
    by_cases hk : k = k0
    · simp [List.lookup, hk, optOr]
    · have : (k == k0) = false := by simp [hk]
      simp only [List.cons_append, List.lookup, this]
      exact ih

theorem lookup_eq_none_of_not_mem_keys {β : Type} {m : List (String × β)} {k : String}
    (h : k ∉ m.map Prod.fst) : m.lookup k = none := by
  induction m with
  | nil => rfl
  | cons p t ih =>
    simp only [List.map_cons, List.mem_cons, not_or] at h
    have : (k == p.1) = false := by simp [h.1]
    obtain ⟨k0, v0⟩ := p
    simp only [List.lookup]
    simp only at this
    rw [this]
    exact ih h.2

theorem lookup_reverse_of_nodup_keys {β : Type} {m : List (String × β)}
    (h : (m.map Prod.fst).Nodup) (k : String) : m.reverse.lookup k = m.lookup k := by
  induction m with
  | nil => rfl
  | cons p t ih =>
    obtain ⟨k0, v0⟩ := p
    simp only [List.map_cons, List.nodup_cons] at h
    rw [List.reverse_cons, lookup_append_sx]
    by_cases hk : k = k0
    · subst hk
      have hnone : t.lookup k = none := lookup_eq_none_of_not_mem_keys h.1
      have hnone' : t.reverse.lookup k = none := by
        rw [ih h.2]; exact hnone
      simp [hnone, hnone', List.lookup, optOr]
    · have : (k == k0) = false := by simp [hk]
      simp only [List.lookup, this]
      rw [ih h.2]
      cases hres : t.lookup k <;> simp [optOr, List.lookup, this]

theorem lookup_dictUpdate {β : Type} (m d : List (String × β)) (k : String) :
    (dictUpdate m d).lookup k = optOr (d.reverse.lookup k) (m.lookup k) := by
  induction d generalizing m with
  | nil => simp [dictUpdate, optOr, List.lookup]
  | cons p t ih =>
    obtain ⟨pk, pv⟩ := p
    have hstep : dictUpdate m ((pk, pv) :: t) = dictUpdate (dictInsert m pk pv) t := rfl
    rw [hstep, ih, List.reverse_cons, lookup_append_sx, optOr_assoc]
    congr 1
    by_cases hk : k = pk
    · subst hk
      simp [List.lookup, lookup_dictInsert_self, optOr]
    · have hb : (k == pk) = false := by simp [hk]
      simp only [List.lookup, hb]
      rw [lookup_dictInsert_ne m pk k pv hk]
      rfl

theorem findSome?_append_sx {α β : Type} (l1 l2 : List α) (f : α → Option β) :
    (l1 ++ l2).findSome? f = optOr (l1.findSome? f) (l2.findSome? f) := by
  induction l1 with
  | nil => simp [List.findSome?, optOr]
  | cons a t ih =>
    simp only [List.cons_append, List.findSome?]
    cases f a <;> simp [optOr, ih]

theorem findSome?_ext {α β : Type} {l : List α} {f g : α → Option β}
    (h : ∀ x ∈ l, f x = g x) : l.findSome? f = l.findSome? g := by
  induction l with
  | nil => rfl
  | cons a t ih =>
    simp only [List.findSome?]
    rw [h a (List.mem_cons_self a t)]
    cases g a with
    | some b => rfl
    | none => exact ih fun x hx => h x (List.mem_cons_of_mem _ hx)

theorem lookup_foldl_dictUpdate (ps : List Dict) (acc : Dict) (k : String) :
    (ps.foldl dictUpdate acc).lookup k =
      optOr (ps.reverse.findSome? fun p => p.reverse.lookup k) (acc.lookup k) := by
  induction ps generalizing acc with
  | nil => simp [List.findSome?, optOr]
  | cons p t ih =>
    simp only [List.foldl_cons, List.reverse_cons]
    rw [ih, findSome?_append_sx, optOr_assoc]
    congr 1
    rw [lookup_dictUpdate]
    congr 1
    simp [List.findSome?]
    cases p.reverse.lookup k <;> rfl

/-! ### Input-router lemmas (`_build_input_data`) -/

/-- The payload contributed by a dependency id: its recorded result's `data`
mapping (empty when absent or `None`). -/
def payloadOf (results : List (String × AgentResult)) (d : String) : Dict :=
  match results.lookup d with
  | some r => r.data.getD []
  | none => []

theorem dictUpdate_nil {β : Type} (m : List (String × β)) : dictUpdate m [] = m := rfl

theorem applyMapping_nil_payload (mapping : List (String × String)) (acc : Dict) :
    applyMapping mapping [] acc = acc := by
  induction mapping generalizing acc with
  | nil => rfl
  | cons p t ih =>
    simp only [applyMapping, List.foldl_cons, List.lookup]
    exact ih acc

theorem buildInputGo_passthrough (results : List (String × AgentResult))
    (deps : List String) (acc : Dict)
    (hs : ∀ d ∈ deps, ∃ r, results.lookup d = some r ∧ r.success = true) :
    buildInputGo [] results deps acc =
      .ok (deps.foldl (fun m d => dictUpdate m (payloadOf results d)) acc) := by
  induction deps generalizing acc with
  | nil => simp [buildInputGo]
  | cons d ds ih =>
    obtain ⟨r, hr, hsucc⟩ := hs d (List.mem_cons_self d ds)
    have hs' : ∀ x ∈ ds, ∃ r, results.lookup x = some r ∧ r.success = true :=
      fun x hx => hs x (List.mem_cons_of_mem _ hx)
    simp only [buildInputGo, hr, hsucc, if_neg (by simp : ¬(true = false)), List.foldl_cons]
    cases hd : r.data with
    | none =>
      have hp : payloadOf results d = [] := by simp [payloadOf, hr, hd]
      rw [hp, dictUpdate_nil]
      exact ih acc hs'
    | some dd =>
      have hp : payloadOf results d = dd := by simp [payloadOf, hr, hd]
      by_cases hdd : dd.isEmpty
      · have : dd = [] := by simpa [List.isEmpty_iff] using hdd
        subst this
        rw [hp, dictUpdate_nil]
        simpa [hdd] using ih acc hs'
      · simp only [hdd, if_neg (by simp : ¬False), List.isEmpty_nil, if_true]
        rw [hp]
        simp only [Bool.false_eq_true, if_false]
        exact ih (dictUpdate acc dd) hs'

theorem lookup_applyMapping (mapping : List (String × String)) (d acc : Dict) (i : String) :
    (applyMapping mapping d acc).lookup i =
      optOr (((mapping.filter fun q => q.2 == i).reverse).findSome? fun q => d.lookup q.1)
        (acc.lookup i) := by
  induction mapping generalizing acc with
  | nil => simp [applyMapping, List.findSome?, optOr]
  | cons p t ih =>
    obtain ⟨ok, ik⟩ := p
    have hstep : applyMapping ((ok, ik) :: t) d acc =
        applyMapping t d (match d.lookup ok with
          | some v => dictInsert acc ik v
          | none => acc) := rfl
    rw [hstep, ih]
    by_cases hik : ik = i
    · subst hik
      have hfilter : (((ok, ik) :: t).filter fun q => q.2 == ik) =
          (ok, ik) :: (t.filter fun q => q.2 == ik) := by
        simp [List.filter_cons]
      have hF : ((((ok, ik) :: t).filter fun q => q.2 == ik).reverse).findSome?
            (fun q => d.lookup q.1) =
          optOr (((t.filter fun q => q.2 == ik).reverse).findSome? fun q => d.lookup q.1)
            (d.lookup ok) := by
        rw [hfilter, List.reverse_cons, findSome?_append_sx]
        congr 1
        simp only [List.findSome?]
        cases d.lookup ok <;> rfl
      rw [hF, optOr_assoc]
      congr 1
      cases hv : d.lookup ok with
      | some v => simp [hv, lookup_dictInsert_self, optOr]
      | none => simp [hv, optOr]
    · have hb : (ik == i) = false := by simp [hik]
      have hfilter : (((ok, ik) :: t).filter fun q => q.2 == i) =
          (t.filter fun q => q.2 == i) := by
        simp [List.filter_cons, hb]
      rw [hfilter]
      cases hv : d.lookup ok with
      | some v =>
        rw [lookup_dictInsert_ne acc ik i v fun h => hik h.symm]
      | none => rfl

theorem buildInputGo_mapping (mapping : List (String × String))
    (results : List (String × AgentResult)) (deps : List String) (acc : Dict)
    (hmap : mapping ≠ [])
    (hs : ∀ d ∈ deps, ∃ r, results.lookup d = some r ∧ r.success = true) :
    buildInputGo mapping results deps acc =
      .ok (deps.foldl (fun m dep => applyMapping mapping (payloadOf results dep) m) acc) := by
  induction deps generalizing acc with
  | nil => simp [buildInputGo]
  | cons d ds ih =>
    obtain ⟨r, hr, hsucc⟩ := hs d (List.mem_cons_self d ds)
    have hs' : ∀ x ∈ ds, ∃ r, results.lookup x = some r ∧ r.success = true :=
      fun x hx => hs x (List.mem_cons_of_mem _ hx)
    have hme : mapping.isEmpty = false := by
      cases mapping with
      | nil => exact absurd rfl hmap
      | cons a b => rfl
    simp only [buildInputGo, hr, hsucc, if_neg (by simp : ¬(true = false)), List.foldl_cons]
    cases hd : r.data with
    | none =>
      have hp : payloadOf results d = [] := by simp [payloadOf, hr, hd]
      rw [hp, applyMapping_nil_payload]
      exact ih acc hs'
    | some dd =>
      have hp : payloadOf results d = dd := by simp [payloadOf, hr, hd]
      by_cases hdd : dd.isEmpty
      · have hddnil : dd = [] := by simpa [List.isEmpty_iff] using hdd
        subst hddnil
        rw [hp, applyMapping_nil_payload]
        simpa [hdd] using ih acc hs'
      · simp only [hdd, Bool.false_eq_true, if_false, hme]
        rw [hp]
        exact ih (applyMapping mapping dd acc) hs'

theorem lookup_foldl_applyMapping (mapping : List (String × String)) (ps : List Dict)
    (acc : Dict) (i : String) :
    (ps.foldl (fun m p => applyMapping mapping p m) acc).lookup i =
      optOr
        (ps.reverse.findSome? fun p =>
          ((mapping.filter fun q => q.2 == i).reverse).findSome? fun q => p.lookup q.1)
        (acc.lookup i) := by
  induction ps generalizing acc with
  | nil => simp [List.findSome?, optOr]
  | cons p t ih =>
    simp only [List.foldl_cons, List.reverse_cons]
    rw [ih, findSome?_append_sx, optOr_assoc]
    congr 1
    rw [lookup_applyMapping]
    congr 1
    simp only [List.findSome?]
    cases ((mapping.filter fun q => q.2 == i).reverse).findSome? fun q => p.lookup q.1 <;> rfl

theorem findSome?_const_none {α β : Type} (l : List α) :
    l.findSome? (fun _ => (none : Option β)) = none := by
  induction l with
  | nil => rfl
  | cons a t ih => simpa [List.findSome?] using ih

/-- C7: for a task with no declared input mapping whose dependencies all have
successful recorded results, the built input bundle is exactly the
declaration-ordered merge of the dependencies' payload dictionaries, and any
key occurring in several payloads resolves to the latest-declared
dependency's value (first hit scanning the payloads in reverse declaration
order). -/
theorem C7_passthrough_merges_dependency_payloads (task : AgentTask)
    (results : List (String × AgentResult))
    (hmap : task.input_mapping = [])
    (hs : ∀ d ∈ task.dependencies, ∃ r, results.lookup d = some r ∧ r.success = true)
    (hnk : ∀ d ∈ task.dependencies, ((payloadOf results d).map Prod.fst).Nodup) :
    buildInputData task results =
      .ok (task.dependencies.foldl (fun m d => dictUpdate m (payloadOf results d)) []) ∧
    ∀ k, (task.dependencies.foldl (fun m d => dictUpdate m (payloadOf results d)) []).lookup k =
      (task.dependencies.reverse.map (payloadOf results)).findSome? fun p => p.lookup k := by
  constructor
  · rw [buildInputData, hmap]
    exact buildInputGo_passthrough results task.dependencies [] hs
  · intro k
    have hfold : task.dependencies.foldl (fun m d => dictUpdate m (payloadOf results d)) [] =
        (task.dependencies.map (payloadOf results)).foldl dictUpdate [] := by
      rw [List.foldl_map]
    rw [hfold, lookup_foldl_dictUpdate]
    have hnil : (List.lookup k ([] : Dict)) = none := rfl
    rw [hnil, optOr_none_right]
    have hrev : (task.dependencies.map (payloadOf results)).reverse =
        task.dependencies.reverse.map (payloadOf results) := by
      rw [List.map_reverse]
    rw [hrev]
    apply findSome?_ext
    intro p hp
    obtain ⟨d, hd, rfl⟩ := List.mem_map.mp hp
    exact lookup_reverse_of_nodup_keys (hnk d (List.mem_reverse.mp hd)) k

/-- Concrete passthrough scenario from the specification's walkthrough:
`C` depends on `A` (payload `{y: 2}`) and `B` (payload `{z: 3}`). -/
def w7task : AgentTask := ⟨"C", ["A", "B"], []⟩

def w7results : List (String × AgentResult) :=
  [("A", ⟨true, some [("y", .nat 2)], none, none⟩),
   ("B", ⟨true, some [("z", .nat 3)], none, none⟩)]

/-- Witness for C7 at a concrete input: the bundle is the merge `{y: 2, z: 3}`. -/
theorem C7_witness :
    buildInputData w7task w7results = .ok [("y", PyVal.nat 2), ("z", PyVal.nat 3)] := by
  have h := C7_passthrough_merges_dependency_payloads w7task w7results rfl
    (by
      intro d hd
      simp only [w7task, List.mem_cons, List.not_mem_nil, or_false] at hd
      rcases hd with rfl | rfl
      · exact ⟨_, rfl, rfl⟩
      · exact ⟨_, rfl, rfl⟩)
    (by
      intro d hd
      simp only [w7task, List.mem_cons, List.not_mem_nil, or_false] at hd
      rcases hd with rfl | rfl
      · decide
      · decide)
  exact h.1.trans (by rfl)

/-- C8 (amended): with a non-empty explicit input mapping, the bundle's value
at any key `i` is given by scanning dependencies latest-declared-first and,
within the mapping, later pairs mapping onto `i` first; keys that are not
mapped input names never appear. -/
theorem C8_explicit_mapping_routes (task : AgentTask)
    (results : List (String × AgentResult))
    (hmap : task.input_mapping ≠ [])
    (hs : ∀ d ∈ task.dependencies, ∃ r, results.lookup d = some r ∧ r.success = true) :
    ∃ B, buildInputData task results = .ok B ∧
      (∀ k, k ∉ task.input_mapping.map Prod.snd → B.lookup k = none) ∧
      ∀ i, B.lookup i = task.dependencies.reverse.findSome? fun dep =>
        ((task.input_mapping.filter fun q => q.2 == i).reverse).findSome? fun q =>
          (payloadOf results dep).lookup q.1 := by
  refine ⟨task.dependencies.foldl
      (fun m dep => applyMapping task.input_mapping (payloadOf results dep) m) [], ?_, ?_, ?_⟩
  · rw [buildInputData]
    exact buildInputGo_mapping task.input_mapping results task.dependencies [] hmap hs
  · intro k hk
    have hfilter : (task.input_mapping.filter fun q => q.2 == k) = [] := by
      rw [List.filter_eq_nil]
      intro q hq
      simp only [beq_iff_eq]
      intro hqk
      exact hk (List.mem_map.mpr ⟨q, hq, hqk⟩)
    have hfold : task.dependencies.foldl
        (fun m dep => applyMapping task.input_mapping (payloadOf results dep) m) [] =
        (task.dependencies.map (payloadOf results)).foldl
          (fun m p => applyMapping task.input_mapping p m) [] := by
      rw [List.foldl_map]
    rw [hfold, lookup_foldl_applyMapping, hfilter]
    have : (List.lookup k ([] : Dict)) = none := rfl
    rw [this, optOr_none_right]
    simp only [List.reverse_nil, List.findSome?]
    exact findSome?_const_none _
  · intro i
    have hfold : task.dependencies.foldl
        (fun m dep => applyMapping task.input_mapping (payloadOf results dep) m) [] =
        (task.dependencies.map (payloadOf results)).foldl
          (fun m p => applyMapping task.input_mapping p m) [] := by
      rw [List.foldl_map]
    rw [hfold, lookup_foldl_applyMapping]
    have hnil : (List.lookup i ([] : Dict)) = none := rfl
    rw [hnil, optOr_none_right]
    have hrev : (task.dependencies.map (payloadOf results)).reverse =
        task.dependencies.reverse.map (payloadOf results) := by
      rw [List.map_reverse]
    rw [hrev, List.findSome?_map]
    rfl

/-- Explicit-mapping counterexample input: mapping `{y: z}`, dependency `d1`
with payload `{y: 1, z: 9}` and dependency `d2` with payload `{y: 2}`. -/
def cx8task : AgentTask := ⟨"b", ["d1", "d2"], [("y", "z")]⟩

def cx8results : List (String × AgentResult) :=
  [("d1", ⟨true, some [("y", .nat 1), ("z", .nat 9)], none, none⟩),
   ("d2", ⟨true, some [("y", .nat 2)], none, none⟩)]

/-- Counterexample to C8 as stated: the built bundle is `{z: 2}`.  For the
mapping pair `(y, z)` and dependency `d1` (whose payload contains `y` with
value `1`) the bundle does not contain that value under `z` (it holds `2`,
the latest-declared dependency's value); and the bundle does contain the key
`z`, which is a key of `d1`'s payload yet not an output key of the mapping. -/
theorem C8_counterexample :
    buildInputData cx8task cx8results = .ok [("z", PyVal.nat 2)] ∧
    ¬ (∀ ok ik, (ok, ik) ∈ cx8task.input_mapping → ∀ dep ∈ cx8task.dependencies,
        ∀ v, (payloadOf cx8results dep).lookup ok = some v →
          (([("z", PyVal.nat 2)] : Dict).lookup ik = some v)) ∧
    ¬ (∀ dep ∈ cx8task.dependencies, ∀ k, k ∈ ((payloadOf cx8results dep).map Prod.fst) →
        k ∉ cx8task.input_mapping.map Prod.fst →
          (([("z", PyVal.nat 2)] : Dict).lookup k = none)) := by
  refine ⟨by rfl, fun h => ?_, fun h => ?_⟩
  · have := h "y" "z" (by decide) "d1" (by decide) (PyVal.nat 1) (by decide)
    exact absurd this (by decide)
  · have := h "d1" (by decide) "z" (by decide) (by decide)
    exact absurd this (by decide)

/-- Concrete renaming scenario from the specification: mapping `{y: renamed}`
over a single dependency with payload `{y: 2}`. -/
def w8task : AgentTask := ⟨"B", ["A"], [("y", "renamed")]⟩

def w8results : List (String × AgentResult) :=
  [("A", ⟨true, some [("y", .nat 2)], none, none⟩)]

/-- Witness for the amended C8: the bundle contains `renamed ↦ 2` and omits `y`. -/
theorem C8_witness :
    ∃ B, buildInputData w8task w8results = .ok B ∧
      B.lookup "renamed" = some (PyVal.nat 2) ∧ B.lookup "y" = none := by
  obtain ⟨B, h1, h2, h3⟩ := C8_explicit_mapping_routes w8task w8results (by decide)
    (by
      intro d hd
      simp only [w8task, List.mem_cons, List.not_mem_nil, or_false] at hd
      subst hd
      exact ⟨_, rfl, rfl⟩)
  refine ⟨B, h1, ?_, h2 "y" (by decide)⟩
  rw [h3 "renamed"]
  rfl

/-- C9: `reset` returns the workflow status to pending, empties the result
store and the execution log, and idles every registered agent, while the
registered-agent list and the declared tasks are untouched. -/
theorem C9_reset_clears_run_state (st : OState) :
    (reset st).status = .PENDING ∧ (reset st).results = [] ∧
    (reset st).execution_log = [] ∧
    (∀ a ∈ st.agents, (reset st).agentStatus a = .IDLE) ∧
    (reset st).agents = st.agents ∧ (reset st).workflow = st.workflow := by
  refine ⟨rfl, rfl, rfl, ?_, rfl, rfl⟩
  intro a ha
  simp only [reset]
  have hc : st.agents.contains a = true := by
    simpa [List.elem_iff] using ha
  simp [hc, ha]

/-- A used orchestrator state: one registered agent in `ERROR` status, stale
results and log, completed workflow. -/
def w9state : OState :=
  ⟨["a"], fun _ => .ERROR, [⟨"a", [], []⟩], .COMPLETED,
    [("a", ⟨true, none, none, none⟩)],
    [⟨"a", "starting", .input [], none⟩], ["a"]⟩

/-- Witness for C9 at a concrete state. -/
theorem C9_witness :
    (reset w9state).agentStatus "a" = .IDLE ∧ (reset w9state).results = [] ∧
    (reset w9state).workflow = w9state.workflow := by
  refine ⟨(C9_reset_clears_run_state w9state).2.2.2.1 "a" ?_,
    (C9_reset_clears_run_state w9state).2.1,
    (C9_reset_clears_run_state w9state).2.2.2.2.2⟩
  decide

/-- Environment whose sole agent always succeeds (irrelevant for C1: the run
never starts). -/
def envA : Env := ⟨fun _ _ => ⟨true, none, none, none⟩, none⟩

/-- Orchestrator state for the C1 failing input: one task declaring the
reserved seed pseudo-identifier among its dependencies. -/
def stC1 : OState :=
  ⟨["a"], fun _ => .IDLE, [⟨"a", ["__initial__"], []⟩], .PENDING, [], [], []⟩

/-- C1 (code bug): a task declaring `"__initial__"` as a dependency makes
validation fail with a dangling-reference error — the reserved seed
pseudo-identifier is not exempted by `_validate_workflow` — so `execute`
raises instead of delivering the seed data, leaving the state untouched apart
from the failed status. -/
theorem C1_seed_dependency_fails_validation :
    validateWorkflow stC1.workflow =
      (false, some "Dependency __initial__ not found in workflow") ∧
    execute envA stC1 (some [("x", PyVal.nat 1)]) =
      (.error "Invalid workflow: Dependency __initial__ not found in workflow",
        { stC1 with status := .FAILED }) := by
  exact ⟨by decide, rfl⟩

/-! ### Validation lemmas: dangling references -/

theorem findDangling_eq_none (wf : List AgentTask) (ts : List AgentTask) :
    findDangling wf ts = none ↔ ∀ t ∈ ts, ∀ d ∈ t.dependencies, d ∈ idsOf wf := by
  induction ts with
  | nil => simp [findDangling]
  | cons t ts ih =>
    simp only [findDangling]
    cases hf : t.dependencies.find? (fun d => !(idsOf wf).contains d) with
    | some d =>
      simp only [reduceCtorEq, false_iff, not_forall]
      have hmem : d ∈ t.dependencies := List.mem_of_find?_eq_some hf
      have hpred := List.find?_some hf
      have hnd : d ∉ idsOf wf := by
        simpa [List.elem_iff] using hpred
      exact ⟨t, List.mem_cons_self t ts, d, hmem, hnd⟩
    | none =>
      rw [ih]
      constructor
      · intro hall u hu e he
        rcases List.mem_cons.mp hu with rfl | hu'
        · have := List.find?_eq_none.mp hf e he
          simpa [List.elem_iff] using this
        · exact hall u hu' e he
      · intro hall u hu e he
        exact hall u (List.mem_cons_of_mem _ hu) e he

theorem findDangling_some {wf ts : List AgentTask} {d : String}
    (h : findDangling wf ts = some d) :
    (∃ t ∈ ts, d ∈ t.dependencies) ∧ d ∉ idsOf wf := by
  induction ts with
  | nil => cases h
  | cons t ts ih =>
    simp only [findDangling] at h
    cases hf : t.dependencies.find? (fun d => !(idsOf wf).contains d) with
    | some d0 =>
      rw [hf] at h
      cases h
      have hmem : d ∈ t.dependencies := List.mem_of_find?_eq_some hf
      have hpred := List.find?_some hf
      have hnd : d ∉ idsOf wf := by
        simpa [List.elem_iff] using hpred
      exact ⟨⟨t, List.mem_cons_self t ts, hmem⟩, hnd⟩
    | none =>
      rw [hf] at h
      obtain ⟨⟨u, hu, hud⟩, hnd⟩ := ih h
      exact ⟨⟨u, List.mem_cons_of_mem _ hu, hud⟩, hnd⟩

/-- C6: a dependency naming no task of the workflow makes validation fail with
an error naming a dangling reference, and `execute` raises before any task
runs: the state is unchanged except for the failed status. -/
theorem C6_dangling_dependency_fails_validation (env : Env) (st : OState) (ii : Option Dict)
    (h : ∃ t ∈ st.workflow, ∃ d ∈ t.dependencies, d ∉ idsOf st.workflow) :
    ∃ d', findDangling st.workflow st.workflow = some d' ∧
      (∃ t ∈ st.workflow, d' ∈ t.dependencies) ∧ d' ∉ idsOf st.workflow ∧
      validateWorkflow st.workflow =
        (false, some ("Dependency " ++ d' ++ " not found in workflow")) ∧
      execute env st ii =
        (.error ("Invalid workflow: " ++ ("Dependency " ++ d' ++ " not found in workflow")),
          { st with status := .FAILED }) := by
  obtain ⟨t, ht, d, hd, hnd⟩ := h
  cases hfd : findDangling st.workflow st.workflow with
  | none => exact absurd ((findDangling_eq_none _ _).mp hfd t ht d hd) hnd
  | some d' =>
    obtain ⟨hmem, hnotin⟩ := findDangling_some hfd
    have hval : validateWorkflow st.workflow =
        (false, some ("Dependency " ++ d' ++ " not found in workflow")) := by
      simp [validateWorkflow, hfd]
    refine ⟨d', rfl, hmem, hnotin, hval, ?_⟩
    simp [execute, hval, showOptErr]

/-- Workflow with a registered agent whose task names the unknown id `ghost`. -/
def stW6 : OState :=
  ⟨["b"], fun _ => .IDLE, [⟨"b", ["ghost"], []⟩], .PENDING, [], [], []⟩

/-- Witness for C6 at a concrete input. -/
theorem C6_witness :
    validateWorkflow stW6.workflow =
      (false, some "Dependency ghost not found in workflow") ∧
    execute envA stW6 none =
      (.error "Invalid workflow: Dependency ghost not found in workflow",
        { stW6 with status := .FAILED }) := by
  obtain ⟨d', hfd, _, _, hval, hexec⟩ :=
    C6_dangling_dependency_fails_validation envA stW6 none
      ⟨⟨"b", ["ghost"], []⟩, by decide, "ghost", by decide, by decide⟩
  have hd' : d' = "ghost" := by
    have hconc : findDangling stW6.workflow stW6.workflow = some "ghost" := by rfl
    exact (Option.some.inj (hfd.symm.trans hconc))
  subst hd'
  exact ⟨hval, hexec⟩

/-! ### Cycle-detection soundness and completeness -/

/-- Direct dependency as declared: task `x` depends on `y`. -/
def dependsOn (wf : List AgentTask) (x y : String) : Prop :=
  ∃ t ∈ wf, t.agent_id = x ∧ y ∈ t.dependencies

/-- The dependency list actually explored by `has_cycle`: the first workflow
task carrying the identifier. -/
def depsOfF (wf : List AgentTask) (a : String) : List String :=
  match findTaskW wf a with
  | some t => t.dependencies
  | none => []

/-- The explored dependency edge relation. -/
def edgeF (wf : List AgentTask) (x y : String) : Prop := y ∈ depsOfF wf x

/-- No cycle is reachable from `a` along explored dependency edges. -/
def SafeF (wf : List AgentTask) (a : String) : Prop :=
  ¬ ∃ y, Relation.ReflTransGen (edgeF wf) a y ∧ Relation.TransGen (edgeF wf) y y

theorem hasCycle_eq_path {wf : List AgentTask} {a : String} {path visited : Finset String}
    (ha : a ∈ path) : hasCycle wf a path visited = (true, visited) := by
  unfold hasCycle
  rw [if_pos ha]

theorem hasCycle_eq_visited {wf : List AgentTask} {a : String} {path visited : Finset String}
    (ha : a ∉ path) (hv : a ∈ visited) : hasCycle wf a path visited = (false, visited) := by
  unfold hasCycle
  rw [if_neg ha, if_pos hv]

theorem hasCycle_eq_no_task {wf : List AgentTask} {a : String} {path visited : Finset String}
    (ha : a ∉ path) (hv : a ∉ visited) (hfind : findTaskW wf a = none) :
    hasCycle wf a path visited = (false, insert a visited) := by
  unfold hasCycle
  rw [if_neg ha, if_neg hv]
  split
  · rfl
  · rename_i t' ht'
    rw [hfind] at ht'
    cases ht'

theorem hasCycle_eq_task {wf : List AgentTask} {a : String} {path visited : Finset String}
    {t : AgentTask} (ha : a ∉ path) (hv : a ∉ visited) (hfind : findTaskW wf a = some t) :
    hasCycle wf a path visited =
      hasCycleList wf t.dependencies (insert a path) (insert a visited) := by
  unfold hasCycle
  rw [if_neg ha, if_neg hv]
  split
  · rename_i ht'
    rw [hfind] at ht'
    cases ht'
  · rename_i t' ht'
    rw [hfind] at ht'
    cases ht'
    rfl

theorem hasCycleList_eq_nil {wf : List AgentTask} {path visited : Finset String} :
    hasCycleList wf [] path visited = (false, visited) := by
  unfold hasCycleList
  rfl

theorem hasCycleList_eq_cons_true {wf : List AgentTask} {d : String} {ds : List String}
    {path visited : Finset String} (hr : (hasCycle wf d path visited).1 = true) :
    hasCycleList wf (d :: ds) path visited = (true, (hasCycle wf d path visited).2) := by
  unfold hasCycleList
  rw [if_pos hr]

theorem hasCycleList_eq_cons_false {wf : List AgentTask} {d : String} {ds : List String}
    {path visited : Finset String} (hr : ¬(hasCycle wf d path visited).1 = true) :
    hasCycleList wf (d :: ds) path visited =
      hasCycleList wf ds path (hasCycle wf d path visited).2 := by
  unfold hasCycleList
  rw [if_neg hr, hasCycleList.eq_def]

theorem dependsOn_of_edgeF {wf : List AgentTask} {x y : String} (h : edgeF wf x y) :
    dependsOn wf x y := by
  unfold edgeF depsOfF at h
  cases hf : findTaskW wf x with
  | none => rw [hf] at h; cases h
  | some t =>
    rw [hf] at h
    have hmem : t ∈ wf := List.mem_of_find?_eq_some hf
    have hid : t.agent_id = x := by
      have := List.find?_some hf
      simpa using this
    exact ⟨t, hmem, hid, h⟩

theorem hasCycle_sound (wf : List AgentTask) :
    ∀ (a : String) (path visited : Finset String),
      (hasCycle wf a path visited).1 = true →
      (∃ p ∈ path, Relation.ReflTransGen (dependsOn wf) a p) ∨
        (∃ y, Relation.ReflTransGen (dependsOn wf) a y ∧
          Relation.TransGen (dependsOn wf) y y) := by
  intro a₀ path₀ visited₀
  refine hasCycle.induct wf
    (fun a path visited => (hasCycle wf a path visited).1 = true →
      (∃ p ∈ path, Relation.ReflTransGen (dependsOn wf) a p) ∨
        (∃ y, Relation.ReflTransGen (dependsOn wf) a y ∧
          Relation.TransGen (dependsOn wf) y y))
    (fun deps path visited => (hasCycleList wf deps path visited).1 = true →
      ∃ d ∈ deps, (∃ p ∈ path, Relation.ReflTransGen (dependsOn wf) d p) ∨
        (∃ y, Relation.ReflTransGen (dependsOn wf) d y ∧
          Relation.TransGen (dependsOn wf) y y))
    ?_ ?_ ?_ ?_ ?_ ?_ ?_ a₀ path₀ visited₀
  · intro a path visited ha _
    exact Or.inl ⟨a, ha, Relation.ReflTransGen.refl⟩
  · intro a path visited ha hv h
    rw [hasCycle_eq_visited ha hv] at h
    cases h
  · intro a path visited ha hv hfind h
    rw [hasCycle_eq_no_task ha hv hfind] at h
    cases h
  · intro a path visited ha hv t hfind ih h
    rw [hasCycle_eq_task ha hv hfind] at h
    obtain ⟨d, hd, hcase⟩ := ih h
    have hedge : dependsOn wf a d := by
      have hmem : t ∈ wf := List.mem_of_find?_eq_some hfind
      have hid : t.agent_id = a := by
        have := List.find?_some hfind
        simpa using this
      exact ⟨t, hmem, hid, hd⟩
    rcases hcase with ⟨p, hp, hrtg⟩ | ⟨y, hry, hcyc⟩
    · rcases Finset.mem_insert.mp hp with rfl | hp'
      · exact Or.inr ⟨p, Relation.ReflTransGen.refl,
          Relation.TransGen.head' hedge hrtg⟩
      · exact Or.inl ⟨p, hp', Relation.ReflTransGen.head hedge hrtg⟩
    · exact Or.inr ⟨y, Relation.ReflTransGen.head hedge hry, hcyc⟩
  · intro path visited h
    rw [hasCycleList_eq_nil] at h
    cases h
  · intro path visited d ds r hr ih h
    obtain hcase := ih hr
    exact ⟨d, List.mem_cons_self d ds, hcase⟩
  · intro path visited d ds r hr ih1 ih2 h
    rw [hasCycleList_eq_cons_false hr] at h
    obtain ⟨d', hd', hcase⟩ := ih2 h
    exact ⟨d', List.mem_cons_of_mem _ hd', hcase⟩

theorem no_edge_safe {wf : List AgentTask} {a : String} (h : depsOfF wf a = []) :
    SafeF wf a := by
  rintro ⟨y, hay, hyy⟩
  rcases Relation.ReflTransGen.cases_head hay with rfl | ⟨b, hab, _⟩
  · rcases (Relation.TransGen.head'_iff.mp hyy) with ⟨b, hab, _⟩
    rw [edgeF, h] at hab
    cases hab
  · rw [edgeF, h] at hab
    cases hab

theorem hasCycle_complete (wf : List AgentTask) :
    ∀ (a : String) (path visited : Finset String),
      ∀ V', hasCycle wf a path visited = (false, V') →
        (∀ x ∈ visited, x ∉ path → SafeF wf x) →
        (∀ x ∈ V', x ∉ path → SafeF wf x) ∧ SafeF wf a := by
  intro a₀ path₀ visited₀
  refine hasCycle.induct wf
    (fun a path visited => ∀ V', hasCycle wf a path visited = (false, V') →
      (∀ x ∈ visited, x ∉ path → SafeF wf x) →
      (∀ x ∈ V', x ∉ path → SafeF wf x) ∧ SafeF wf a)
    (fun deps path visited => ∀ V', hasCycleList wf deps path visited = (false, V') →
      (∀ x ∈ visited, x ∉ path → SafeF wf x) →
      (∀ x ∈ V', x ∉ path → SafeF wf x) ∧ ∀ d ∈ deps, SafeF wf d)
    ?_ ?_ ?_ ?_ ?_ ?_ ?_ a₀ path₀ visited₀
  · -- a ∈ path: returns true, vacuous
    intro a path visited ha V' hfalse _
    rw [hasCycle_eq_path ha] at hfalse
    cases hfalse
  · -- a already visited
    intro a path visited ha hv V' hfalse hinv
    rw [hasCycle_eq_visited ha hv] at hfalse
    have hV : V' = visited := by
      have := congrArg Prod.snd hfalse
      simpa using this.symm
    subst hV
    exact ⟨hinv, hinv a hv ha⟩
  · -- no task found: no outgoing edges
    intro a path visited ha hv hfind V' hfalse hinv
    rw [hasCycle_eq_no_task ha hv hfind] at hfalse
    have hV : V' = insert a visited := by
      have := congrArg Prod.snd hfalse
      simpa using this.symm
    subst hV
    have hsafe : SafeF wf a := no_edge_safe (by simp [depsOfF, hfind])
    refine ⟨?_, hsafe⟩
    intro x hx hxp
    rcases Finset.mem_insert.mp hx with rfl | hx'
    · exact hsafe
    · exact hinv x hx' hxp
  · -- explore the found task's dependencies
    intro a path visited ha hv t hfind ih V' hfalse hinv
    rw [hasCycle_eq_task ha hv hfind] at hfalse
    have hinv' : ∀ x ∈ insert a visited, x ∉ insert a path → SafeF wf x := by
      intro x hx hxp
      rcases Finset.mem_insert.mp hx with rfl | hx'
      · exact absurd (Finset.mem_insert_self x path) hxp
      · exact hinv x hx' fun hp => hxp (Finset.mem_insert_of_mem hp)
    obtain ⟨hV', hdeps⟩ := ih V' hfalse hinv'
    have hdepsF : depsOfF wf a = t.dependencies := by simp [depsOfF, hfind]
    have hsafe : SafeF wf a := by
      rintro ⟨y, hay, hyy⟩
      rcases Relation.ReflTransGen.cases_head hay with rfl | ⟨b, hab, hby⟩
      · rcases Relation.TransGen.head'_iff.mp hyy with ⟨b, hab, hba⟩
        have hb : b ∈ t.dependencies := by rwa [edgeF, hdepsF] at hab
        exact hdeps b hb ⟨a, hba, hyy⟩
      · have hb : b ∈ t.dependencies := by rwa [edgeF, hdepsF] at hab
        exact hdeps b hb ⟨y, hby, hyy⟩
    refine ⟨?_, hsafe⟩
    intro x hx hxp
    by_cases hxa : x = a
    · exact hxa ▸ hsafe
    · exact hV' x hx (by simp [Finset.mem_insert, hxa, hxp])
  · -- empty dependency list
    intro path visited V' hfalse hinv
    rw [hasCycleList_eq_nil] at hfalse
    have hV : V' = visited := by
      have := congrArg Prod.snd hfalse
      simpa using this.symm
    subst hV
    exact ⟨hinv, by intro d hd; cases hd⟩
  · -- head dependency found a cycle: returns true, vacuous
    intro path visited d ds r hr ih V' hfalse _
    rw [hasCycleList_eq_cons_true hr] at hfalse
    have := congrArg Prod.fst hfalse
    simp at this
  · -- head dependency safe, continue with the tail
    intro path visited d ds r hr ih1 ih2 V' hfalse hinv
    rw [hasCycleList_eq_cons_false hr] at hfalse
    have hd_eq : hasCycle wf d path visited =
        (false, (hasCycle wf d path visited).2) := by
      have h1 : (hasCycle wf d path visited).1 = false := by
        cases hb : (hasCycle wf d path visited).1 with
        | true => exact absurd hb hr
        | false => rfl
      exact Prod.ext h1 rfl
    obtain ⟨hmid, hdsafe⟩ := ih1 (hasCycle wf d path visited).2 hd_eq hinv
    obtain ⟨hV', htail⟩ := ih2 V' hfalse hmid
    refine ⟨hV', ?_⟩
    intro e he
    rcases List.mem_cons.mp he with rfl | he'
    · exact hdsafe
    · exact htail e he'

theorem cycleScan_none_safe (wf : List AgentTask) :
    ∀ (ts : List AgentTask) (visited : Finset String),
      cycleScan wf ts visited = none →
      (∀ x ∈ visited, SafeF wf x) →
      ∀ t ∈ ts, SafeF wf t.agent_id := by
  intro ts
  induction ts with
  | nil => intro visited _ _ t ht; cases ht
  | cons t ts ih =>
    intro visited hscan hinv
    simp only [cycleScan] at hscan
    by_cases hr : (hasCycle wf t.agent_id ∅ visited).1 = true
    · rw [if_pos hr] at hscan
      cases hscan
    · rw [if_neg hr] at hscan
      have heq : hasCycle wf t.agent_id ∅ visited =
          (false, (hasCycle wf t.agent_id ∅ visited).2) := by
        refine Prod.ext ?_ rfl
        cases hb : (hasCycle wf t.agent_id ∅ visited).1 with
        | true => exact absurd hb hr
        | false => rfl
      obtain ⟨hV', hsafe⟩ := hasCycle_complete wf t.agent_id ∅ visited
        (hasCycle wf t.agent_id ∅ visited).2 heq
        (fun x hx _ => hinv x hx)
      intro u hu
      rcases List.mem_cons.mp hu with rfl | hu'
      · exact hsafe
      · exact ih (hasCycle wf t.agent_id ∅ visited).2 hscan
          (fun x hx => hV' x hx (Finset.not_mem_empty x)) u hu'

theorem cycleScan_some_reaches (wf : List AgentTask) :
    ∀ (ts : List AgentTask) (visited : Finset String) (a : String),
      cycleScan wf ts visited = some a →
      (∃ t ∈ ts, t.agent_id = a) ∧
        ∃ y, Relation.ReflTransGen (dependsOn wf) a y ∧
          Relation.TransGen (dependsOn wf) y y := by
  intro ts
  induction ts with
  | nil => intro visited a h; cases h
  | cons t ts ih =>
    intro visited a hscan
    simp only [cycleScan] at hscan
    by_cases hr : (hasCycle wf t.agent_id ∅ visited).1 = true
    · rw [if_pos hr] at hscan
      cases hscan
      rcases hasCycle_sound wf t.agent_id ∅ visited hr with ⟨p, hp, _⟩ | hreach
      · exact absurd hp (Finset.not_mem_empty p)
      · exact ⟨⟨t, List.mem_cons_self t ts, rfl⟩, hreach⟩
    · rw [if_neg hr] at hscan
      obtain ⟨⟨u, hu, hid⟩, hreach⟩ := ih _ a hscan
      exact ⟨⟨u, List.mem_cons_of_mem _ hu, hid⟩, hreach⟩

theorem findTaskW_eq_of_nodup {wf : List AgentTask} (hnd : (idsOf wf).Nodup)
    {t : AgentTask} (ht : t ∈ wf) : findTaskW wf t.agent_id = some t := by
  induction wf with
  | nil => cases ht
  | cons u us ih =>
    simp only [idsOf, List.map_cons, List.nodup_cons] at hnd
    rcases List.mem_cons.mp ht with rfl | ht'
    · simp [findTaskW, List.find?]
    · have hne : u.agent_id ≠ t.agent_id := by
        intro h
        exact hnd.1 (h ▸ List.mem_map.mpr ⟨t, ht', rfl⟩)
      have hb : (u.agent_id == t.agent_id) = false := by simp [hne]
      simp only [findTaskW, List.find?, hb]
      exact ih hnd.2 ht'

theorem dependsOn_eq_edgeF {wf : List AgentTask} (hnd : (idsOf wf).Nodup) :
    dependsOn wf = edgeF wf := by
  funext x y
  apply propext
  constructor
  · rintro ⟨t, ht, rfl, hy⟩
    unfold edgeF depsOfF
    rw [findTaskW_eq_of_nodup hnd ht]
    exact hy
  · exact dependsOn_of_edgeF

/-- C5 (amended): in a workflow with distinct task ids and resolvable
dependency references that contains a dependency cycle, `execute` fails
validation before anything runs: the raised message names a task from which a
cycle is reachable along dependency edges (not necessarily a task on the
cycle), and the state is unchanged apart from the failed status — no agent's
`process` is invoked and no result is recorded. -/
theorem C5_cycle_fails_validation (env : Env) (st : OState) (ii : Option Dict)
    (hnd : (idsOf st.workflow).Nodup)
    (hres : ∀ t ∈ st.workflow, ∀ d ∈ t.dependencies, d ∈ idsOf st.workflow)
    (hcyc : ∃ y, Relation.TransGen (dependsOn st.workflow) y y) :
    ∃ a, (∃ t ∈ st.workflow, t.agent_id = a) ∧
      (∃ y, Relation.ReflTransGen (dependsOn st.workflow) a y ∧
        Relation.TransGen (dependsOn st.workflow) y y) ∧
      validateWorkflow st.workflow =
        (false, some ("Circular dependency detected involving " ++ a)) ∧
      execute env st ii =
        (.error ("Invalid workflow: " ++ ("Circular dependency detected involving " ++ a)),
          { st with status := .FAILED }) := by
  have hfd : findDangling st.workflow st.workflow = none :=
    (findDangling_eq_none _ _).mpr hres
  cases hscan : cycleScan st.workflow st.workflow ∅ with
  | none =>
    exfalso
    obtain ⟨y, hyy⟩ := hcyc
    obtain ⟨b, hyb, _⟩ := Relation.TransGen.head'_iff.mp hyy
    obtain ⟨t, ht, hid, _⟩ := hyb
    have hsafe := cycleScan_none_safe st.workflow st.workflow ∅ hscan
      (fun x hx => absurd hx (Finset.not_mem_empty x)) t ht
    rw [dependsOn_eq_edgeF hnd] at hyy
    rw [hid] at hsafe
    exact hsafe ⟨y, Relation.ReflTransGen.refl, hyy⟩
  | some a =>
    obtain ⟨htask, hreach⟩ := cycleScan_some_reaches st.workflow st.workflow ∅ a hscan
    have hval : validateWorkflow st.workflow =
        (false, some ("Circular dependency detected involving " ++ a)) := by
      simp [validateWorkflow, hfd, hscan]
    refine ⟨a, htask, hreach, hval, ?_⟩
    simp [execute, hval, showOptErr]

/-- Counterexample workflow for C5 as stated: `A → B → C → B`; the only cycle
is `B ↔ C`, and `A` merely reaches it. -/
def wf5cx : List AgentTask := [⟨"A", ["B"], []⟩, ⟨"B", ["C"], []⟩, ⟨"C", ["B"], []⟩]

/-- Counterexample to C5 as stated: the workflow has a cycle (`B`), validation
fails, but the failure message names only `A`, which is not on any cycle (no
task transitively depends on `A`, so `A` cannot transitively depend on
itself). -/
theorem C5_counterexample :
    validateWorkflow wf5cx = (false, some "Circular dependency detected involving A") ∧
    Relation.TransGen (dependsOn wf5cx) "B" "B" ∧
    ¬ Relation.TransGen (dependsOn wf5cx) "A" "A" := by
  refine ⟨?_, ?_, ?_⟩
  · simp [validateWorkflow, wf5cx, findDangling, cycleScan, hasCycle, hasCycleList,
      findTaskW, idsOf, List.find?, List.lookup]
  · refine Relation.TransGen.head ⟨⟨"B", ["C"], []⟩, ?_, rfl, ?_⟩
      (Relation.TransGen.single ⟨⟨"C", ["B"], []⟩, ?_, rfl, ?_⟩) <;> simp [wf5cx]
  · intro h
    obtain ⟨b, _, hba⟩ := Relation.TransGen.tail'_iff.mp h
    obtain ⟨t, ht, _, hdep⟩ := hba
    simp only [wf5cx, List.mem_cons, List.not_mem_nil, or_false] at ht
    rcases ht with rfl | rfl | rfl <;> simp at hdep

/-- Self-loop workflow used as witness input for the amended C5. -/
def wf5w : List AgentTask := [⟨"a", ["a"], []⟩]

def st5w : OState := ⟨["a"], fun _ => .IDLE, wf5w, .PENDING, [], [], []⟩

/-- Witness for the amended C5 at a concrete cyclic workflow. -/
theorem C5_witness :
    validateWorkflow st5w.workflow =
      (false, some "Circular dependency detected involving a") ∧
    (execute envA st5w none).2.status = .FAILED ∧
    (execute envA st5w none).2.results = [] ∧
    (execute envA st5w none).2.invoked = [] := by
  obtain ⟨a, htask, hreach, hval, hexec⟩ := C5_cycle_fails_validation envA st5w none
    (by decide) (by decide)
    ⟨"a", Relation.TransGen.single ⟨⟨"a", ["a"], []⟩, by decide, rfl, by decide⟩⟩
  have ha : a = "a" := by
    obtain ⟨t, ht, hid⟩ := htask
    have : t = (⟨"a", ["a"], []⟩ : AgentTask) := by
      simpa [st5w, wf5w] using ht
    rw [this] at hid
    exact hid.symm
  subst ha
  rw [hexec]
  exact ⟨hval, rfl, rfl, rfl⟩

/-! ### Kahn's algorithm: queue discipline (no id is ever scheduled twice) -/

theorem lookup_decrDeg_self (deg : List (String × Int)) (d : String) :
    (decrDeg deg d).lookup d = (deg.lookup d).map (· - 1) := by
  induction deg with
  | nil => rfl
  | cons p t ih =>
    obtain ⟨k, v⟩ := p
    by_cases hk : k = d
    · subst hk
      simp [decrDeg, List.lookup]
    · have hb : (d == k) = false := by simp [Ne.symm hk]
      simp only [decrDeg, if_neg hk, List.lookup, hb]
      exact ih

theorem lookup_decrDeg_ne (deg : List (String × Int)) {x d : String} (h : x ≠ d) :
    (decrDeg deg d).lookup x = deg.lookup x := by
  induction deg with
  | nil => rfl
  | cons p t ih =>
    obtain ⟨k, v⟩ := p
    by_cases hk : k = d
    · subst hk
      have hb : (x == k) = false := by simp [h]
      simp [decrDeg, List.lookup, hb]
    · simp only [decrDeg, if_neg hk, List.lookup]
      by_cases hx : x = k
      · simp [hx]
      · have hb : (x == k) = false := by simp [hx]
        rw [hb]
        exact ih

theorem decrDeg_keys (deg : List (String × Int)) (d : String) :
    (decrDeg deg d).map Prod.fst = deg.map Prod.fst := by
  induction deg with
  | nil => rfl
  | cons p t ih =>
    obtain ⟨k, v⟩ := p
    by_cases hk : k = d
    · simp [decrDeg, hk]
    · simp [decrDeg, hk, ih]

theorem processDeps_step (d : String) (ds : List String) (deg : List (String × Int))
    (q : List String) :
    processDeps (d :: ds) deg q =
      processDeps ds (decrDeg deg d)
        (if (decrDeg deg d).lookup d = some 0 then q ++ [d] else q) := rfl

theorem processDeps_keys : ∀ (L : List String) (deg : List (String × Int)) (q : List String),
    (processDeps L deg q).1.map Prod.fst = deg.map Prod.fst := by
  intro L
  induction L with
  | nil => intro deg q; rfl
  | cons d ds ih =>
    intro deg q
    rw [processDeps_step]
    rw [ih]
    exact decrDeg_keys deg d

theorem mem_keys_of_lookup {β : Type} {m : List (String × β)} {k : String} {v : β}
    (h : m.lookup k = some v) : k ∈ m.map Prod.fst := by
  induction m with
  | nil => cases h
  | cons p t ih =>
    obtain ⟨k0, v0⟩ := p
    by_cases hk : k = k0
    · simp [hk]
    · have hb : (k == k0) = false := by simp [hk]
      simp only [List.lookup, hb] at h
      simp [ih h]

theorem processDeps_queue_sub : ∀ (L : List String) (deg : List (String × Int))
    (q : List String), ∀ x ∈ (processDeps L deg q).2, x ∈ q ∨ x ∈ deg.map Prod.fst := by
  intro L
  induction L with
  | nil => intro deg q x hx; exact Or.inl hx
  | cons d ds ih =>
    intro deg q x hx
    rw [processDeps_step] at hx
    by_cases hz : (decrDeg deg d).lookup d = some 0
    · rw [if_pos hz] at hx
      rcases ih (decrDeg deg d) (q ++ [d]) x hx with hq | hkey
      · rcases List.mem_append.mp hq with hq' | hd
        · exact Or.inl hq'
        · have hxd : x = d := by simpa using hd
          have hdk : d ∈ deg.map Prod.fst := by
            have := mem_keys_of_lookup hz
            rwa [decrDeg_keys] at this
          exact Or.inr (hxd ▸ hdk)
      · rw [decrDeg_keys] at hkey
        exact Or.inr hkey
    · rw [if_neg hz] at hx
      rcases ih (decrDeg deg d) q x hx with hq | hkey
      · exact Or.inl hq
      · rw [decrDeg_keys] at hkey
        exact Or.inr hkey

theorem processDeps_light (res' : List String) :
    ∀ (L : List String) (deg : List (String × Int)) (q : List String),
      (res' ++ q).Nodup →
      (∀ x ∈ res' ++ q, ∃ v, deg.lookup x = some v ∧ v ≤ 0) →
      (res' ++ (processDeps L deg q).2).Nodup ∧
      (∀ x ∈ res' ++ (processDeps L deg q).2,
        ∃ v, (processDeps L deg q).1.lookup x = some v ∧ v ≤ 0) := by
  intro L
  induction L with
  | nil => intro deg q h1 h2; exact ⟨h1, h2⟩
  | cons d ds ih =>
    intro deg q h1 h2
    rw [processDeps_step]
    by_cases hz : (decrDeg deg d).lookup d = some 0
    · rw [if_pos hz]
      have hd1 : deg.lookup d = some 1 := by
        have hmap := lookup_decrDeg_self deg d
        rw [hz] at hmap
        cases hv : deg.lookup d with
        | none => rw [hv] at hmap; simp at hmap
        | some v =>
          rw [hv] at hmap
          simp only [Option.map_some'] at hmap
          have hv0 : (0 : Int) = v - 1 := Option.some.inj hmap
          have hv1 : v = 1 := by omega
          rw [hv1]
      have hdnot : d ∉ res' ++ q := by
        intro hd
        obtain ⟨v, hv, hle⟩ := h2 d hd
        rw [hd1] at hv
        have : (1 : Int) = v := Option.some.inj hv
        omega
      have h1' : (res' ++ (q ++ [d])).Nodup := by
        rw [← List.append_assoc]
        refine h1.append (List.nodup_singleton d) ?_
        intro x hx hxd
        have : x = d := by simpa using hxd
        exact hdnot (this ▸ hx)
      have h2' : ∀ x ∈ res' ++ (q ++ [d]),
          ∃ v, (decrDeg deg d).lookup x = some v ∧ v ≤ 0 := by
        intro x hx
        rw [← List.append_assoc] at hx
        rcases List.mem_append.mp hx with hold | hnew
        · have hxd : x ≠ d := fun h => hdnot (h ▸ hold)
          obtain ⟨v, hv, hle⟩ := h2 x hold
          exact ⟨v, by rw [lookup_decrDeg_ne deg hxd]; exact hv, hle⟩
        · have : x = d := by simpa using hnew
          subst this
          exact ⟨0, hz, le_refl 0⟩
      exact ih (decrDeg deg d) (q ++ [d]) h1' h2'
    · rw [if_neg hz]
      have h2' : ∀ x ∈ res' ++ q, ∃ v, (decrDeg deg d).lookup x = some v ∧ v ≤ 0 := by
        intro x hx
        obtain ⟨v, hv, hle⟩ := h2 x hx
        by_cases hxd : x = d
        · subst hxd
          refine ⟨v - 1, ?_, by omega⟩
          rw [lookup_decrDeg_self, hv]
          rfl
        · exact ⟨v, by rw [lookup_decrDeg_ne deg hxd]; exact hv, hle⟩
      exact ih (decrDeg deg d) q h1 h2'

theorem kahnLoop_eq_nil (g : List (String × List String)) (deg : List (String × Int))
    (res : List String) : kahnLoop g deg [] res = res := by
  rw [kahnLoop.eq_def]

theorem kahnLoop_eq_cons (g : List (String × List String)) (deg : List (String × Int))
    (a : String) (rest res : List String) :
    kahnLoop g deg (a :: rest) res =
      kahnLoop g (processDeps ((g.lookup a).getD []) deg rest).1
        (processDeps ((g.lookup a).getD []) deg rest).2 (res ++ [a]) := by
  rw [kahnLoop.eq_def]

theorem kahnLoop_light (g : List (String × List String)) :
    ∀ (deg : List (String × Int)) (q res : List String),
      (res ++ q).Nodup →
      (∀ x ∈ res ++ q, ∃ v, deg.lookup x = some v ∧ v ≤ 0) →
      (kahnLoop g deg q res).Nodup ∧
      ∀ x ∈ kahnLoop g deg q res, x ∈ res ++ q ∨ x ∈ deg.map Prod.fst := by
  intro deg₀ q₀ res₀
  refine kahnLoop.induct g
    (fun deg q res =>
      (res ++ q).Nodup →
      (∀ x ∈ res ++ q, ∃ v, deg.lookup x = some v ∧ v ≤ 0) →
      (kahnLoop g deg q res).Nodup ∧
      ∀ x ∈ kahnLoop g deg q res, x ∈ res ++ q ∨ x ∈ deg.map Prod.fst)
    ?_ ?_ deg₀ q₀ res₀
  · intro deg res h1 h2
    rw [kahnLoop_eq_nil]
    exact ⟨by simpa using h1, fun x hx => Or.inl (by simpa using hx)⟩
  · intro deg res a rest pr ih h1 h2
    rw [kahnLoop_eq_cons]
    have hshift : res ++ a :: rest = (res ++ [a]) ++ rest := by simp
    rw [hshift] at h1 h2
    obtain ⟨h1', h2'⟩ := processDeps_light (res ++ [a]) ((g.lookup a).getD []) deg rest h1 h2
    obtain ⟨hnd, hmem⟩ := ih h1' h2'
    refine ⟨hnd, ?_⟩
    intro x hx
    rcases hmem x hx with hin | hkey
    · rcases List.mem_append.mp hin with hra | hq
      · exact Or.inl (by
          rcases List.mem_append.mp hra with h | h
          · exact List.mem_append.mpr (Or.inl h)
          · have : x = a := by simpa using h
            subst this
            exact List.mem_append.mpr (Or.inr (List.mem_cons_self x rest)))
      · rcases processDeps_queue_sub ((g.lookup a).getD []) deg rest x hq with hr | hk
        · exact Or.inl (List.mem_append.mpr (Or.inr (List.mem_cons_of_mem a hr)))
        · exact Or.inr hk
    · rw [processDeps_keys] at hkey
      exact Or.inr hkey

theorem dictInsert_cons_eq {β : Type} (t : List (String × β)) (k : String) (v0 v : β) :
    dictInsert ((k, v0) :: t) k v = (k, v) :: t := by
  simp [dictInsert]

theorem dictInsert_cons_ne {β : Type} (t : List (String × β)) {k0 k : String} (v0 v : β)
    (h : k0 ≠ k) : dictInsert ((k0, v0) :: t) k v = (k0, v0) :: dictInsert t k v := by
  simp [dictInsert, h]

theorem dictInsert_keys_mem {β : Type} (m : List (String × β)) (k : String) (v : β)
    (x : String) :
    x ∈ (dictInsert m k v).map Prod.fst ↔ x ∈ m.map Prod.fst ∨ x = k := by
  induction m with
  | nil => simp [dictInsert]
  | cons p t ih =>
    obtain ⟨k0, v0⟩ := p
    by_cases hk : k0 = k
    · subst hk
      rw [dictInsert_cons_eq]
      simp only [List.map_cons, List.mem_cons]
      tauto
    · rw [dictInsert_cons_ne t v0 v hk]
      simp only [List.map_cons, List.mem_cons, ih]
      tauto

theorem dictInsert_keys_nodup {β : Type} {m : List (String × β)}
    (h : (m.map Prod.fst).Nodup) (k : String) (v : β) :
    ((dictInsert m k v).map Prod.fst).Nodup := by
  induction m with
  | nil => simp [dictInsert]
  | cons p t ih =>
    obtain ⟨k0, v0⟩ := p
    simp only [List.map_cons, List.nodup_cons] at h
    by_cases hk : k0 = k
    · subst hk
      rw [dictInsert_cons_eq]
      simp only [List.map_cons, List.nodup_cons]
      exact ⟨h.1, h.2⟩
    · rw [dictInsert_cons_ne t v0 v hk]
      simp only [List.map_cons, List.nodup_cons]
      refine ⟨?_, ih h.2⟩
      rw [dictInsert_keys_mem]
      push_neg
      exact ⟨h.1, hk⟩

theorem initDeg_aux_keys :
    ∀ (wf : List AgentTask) (m : List (String × Int)), (m.map Prod.fst).Nodup →
      (((wf.foldl (fun m t => dictInsert m t.agent_id (t.dependencies.length : Int)) m).map
          Prod.fst).Nodup ∧
        ∀ x, x ∈ (wf.foldl (fun m t => dictInsert m t.agent_id
            (t.dependencies.length : Int)) m).map Prod.fst ↔
          x ∈ m.map Prod.fst ∨ x ∈ idsOf wf) := by
  intro wf
  induction wf with
  | nil =>
    intro m hm
    exact ⟨hm, by simp [idsOf]⟩
  | cons t ts ih =>
    intro m hm
    simp only [List.foldl_cons]
    obtain ⟨hnd, hmem⟩ := ih (dictInsert m t.agent_id (t.dependencies.length : Int))
      (dictInsert_keys_nodup hm _ _)
    refine ⟨hnd, ?_⟩
    intro x
    rw [hmem x, dictInsert_keys_mem]
    simp only [idsOf, List.map_cons, List.mem_cons]
    tauto

theorem initDeg_keys_nodup (wf : List AgentTask) : ((initDeg wf).map Prod.fst).Nodup :=
  (initDeg_aux_keys wf [] (by simp)).1

theorem initDeg_keys_mem (wf : List AgentTask) (x : String) :
    x ∈ (initDeg wf).map Prod.fst ↔ x ∈ idsOf wf := by
  have := (initDeg_aux_keys wf [] (by simp)).2 x
  simpa [initDeg] using this

theorem queue_sublist_keys (deg : List (String × Int)) :
    List.Sublist (deg.filterMap fun p => if p.2 = 0 then some p.1 else none)
      (deg.map Prod.fst) := by
  induction deg with
  | nil => simp
  | cons p t ih =>
    by_cases hz : p.2 = 0
    · simp only [List.filterMap_cons, if_pos hz, List.map_cons]
      exact ih.cons₂ p.1
    · simp only [List.filterMap_cons, if_neg hz, List.map_cons]
      exact ih.cons p.1

theorem lookup_eq_of_mem_of_nodupkeys {β : Type} {m : List (String × β)}
    (h : (m.map Prod.fst).Nodup) {k : String} {v : β} (hm : (k, v) ∈ m) :
    m.lookup k = some v := by
  induction m with
  | nil => cases hm
  | cons p t ih =>
    obtain ⟨k0, v0⟩ := p
    simp only [List.map_cons, List.nodup_cons] at h
    rcases List.mem_cons.mp hm with heq | hm'
    · cases heq
      simp [List.lookup]
    · have hk : k ≠ k0 := by
        intro hkk
        exact h.1 (hkk ▸ List.mem_map.mpr ⟨(k, v), hm', rfl⟩)
      have hb : (k == k0) = false := by simp [hk]
      simp only [List.lookup, hb]
      exact ih h.2 hm'

theorem mem_queue_lookup_zero {deg : List (String × Int)}
    (hnd : (deg.map Prod.fst).Nodup) {x : String}
    (hx : x ∈ deg.filterMap fun p => if p.2 = 0 then some p.1 else none) :
    deg.lookup x = some 0 := by
  obtain ⟨p, hp, hpx⟩ := List.mem_filterMap.mp hx
  by_cases hz : p.2 = 0
  · rw [if_pos hz] at hpx
    have hpeq : p = (x, 0) := by
      obtain ⟨p1, p2⟩ := p
      simp only at hz hpx
      cases hpx
      simp [hz]
    rw [hpeq] at hp
    exact lookup_eq_of_mem_of_nodupkeys hnd hp
  · rw [if_neg hz] at hpx
    cases hpx

/-- The list produced by Kahn's loop inside `_topological_sort` never repeats
an id and only contains workflow ids (regardless of well-formedness). -/
theorem kahn_result_facts (wf : List AgentTask) :
    (kahnLoop (buildGraph wf (initGraph wf)) (initDeg wf)
      ((initDeg wf).filterMap fun p => if p.2 = 0 then some p.1 else none) []).Nodup ∧
    ∀ x ∈ kahnLoop (buildGraph wf (initGraph wf)) (initDeg wf)
      ((initDeg wf).filterMap fun p => if p.2 = 0 then some p.1 else none) [],
      x ∈ idsOf wf := by
  have hknd := initDeg_keys_nodup wf
  have hqs := queue_sublist_keys (initDeg wf)
  have hqnd : ((initDeg wf).filterMap fun p => if p.2 = 0 then some p.1 else none).Nodup :=
    hqs.nodup hknd
  have h1 : (([] : List String) ++
      ((initDeg wf).filterMap fun p => if p.2 = 0 then some p.1 else none)).Nodup := by
    simpa using hqnd
  have h2 : ∀ x ∈ ([] : List String) ++
      ((initDeg wf).filterMap fun p => if p.2 = 0 then some p.1 else none),
      ∃ v, (initDeg wf).lookup x = some v ∧ v ≤ 0 := by
    intro x hx
    simp only [List.nil_append] at hx
    exact ⟨0, mem_queue_lookup_zero hknd hx, le_refl 0⟩
  have hres := kahnLoop_light (buildGraph wf (initGraph wf)) (initDeg wf)
    ((initDeg wf).filterMap fun p => if p.2 = 0 then some p.1 else none) [] h1 h2
  obtain ⟨hnd, hmem⟩ := hres
  refine ⟨hnd, ?_⟩
  intro x hx
  rcases hmem x hx with hq | hk
  · simp only [List.nil_append] at hq
    exact (initDeg_keys_mem wf x).mp (hqs.subset hq)
  · exact (initDeg_keys_mem wf x).mp hk

theorem topologicalSort_eq_if (wf : List AgentTask) :
    topologicalSort wf =
      (if (kahnLoop (buildGraph wf (initGraph wf)) (initDeg wf)
          ((initDeg wf).filterMap fun p => if p.2 = 0 then some p.1 else none) []).length
          = wf.length
        then Except.ok (kahnLoop (buildGraph wf (initGraph wf)) (initDeg wf)
          ((initDeg wf).filterMap fun p => if p.2 = 0 then some p.1 else none) [])
        else Except.error "Workflow has circular dependencies") := rfl

theorem topologicalSort_ok_nodup {wf : List AgentTask} {order : List String}
    (h : topologicalSort wf = .ok order) :
    order.Nodup ∧ (∀ x ∈ order, x ∈ idsOf wf) ∧ order.length = wf.length := by
  obtain ⟨hnd, hmem⟩ := kahn_result_facts wf
  rw [topologicalSort_eq_if] at h
  split at h
  · rename_i hlen
    cases h
    exact ⟨hnd, hmem, hlen⟩
  · cases h

theorem toFinset_card_lt_of_not_nodup {l : List String} (h : ¬ l.Nodup) :
    l.toFinset.card < l.length := by
  rw [List.card_toFinset]
  rcases Nat.lt_or_ge l.dedup.length l.length with hlt | hge
  · exact hlt
  · exfalso
    have hsub := List.dedup_sublist l
    have hle := hsub.length_le
    have heq : l.dedup.length = l.length := le_antisymm hle hge
    exact h (List.dedup_eq_self.mp (hsub.eq_of_length heq))

theorem nodup_subset_length_lt {l ids : List String} (hnd : l.Nodup)
    (hsub : ∀ x ∈ l, x ∈ ids) (hdup : ¬ ids.Nodup) : l.length < ids.length := by
  have h1 : l.length = l.toFinset.card := (List.toFinset_card_of_nodup hnd).symm
  have h2 : l.toFinset ⊆ ids.toFinset := by
    intro x hx
    rw [List.mem_toFinset] at hx ⊢
    exact hsub x hx
  have h3 : l.toFinset.card ≤ ids.toFinset.card := Finset.card_le_card h2
  have h4 : ids.toFinset.card < ids.length := toFinset_card_lt_of_not_nodup hdup
  omega

theorem topologicalSort_error_of_dup {wf : List AgentTask}
    (hdup : ¬ (idsOf wf).Nodup) :
    topologicalSort wf = .error "Workflow has circular dependencies" := by
  obtain ⟨hnd, hmem⟩ := kahn_result_facts wf
  have hlt := nodup_subset_length_lt hnd hmem hdup
  have h5 : (idsOf wf).length = wf.length := by simp [idsOf]
  rw [topologicalSort_eq_if]
  split
  · rename_i hlen
    omega
  · rfl

/-- If every dependency resolves and no task transitively depends on itself,
validation succeeds (this also covers workflows with duplicated task ids,
whose cycle search only follows each id's first task). -/
theorem validate_true_of_acyclic {wf : List AgentTask}
    (hres : ∀ t ∈ wf, ∀ d ∈ t.dependencies, d ∈ idsOf wf)
    (hacyc : ∀ y, ¬ Relation.TransGen (dependsOn wf) y y) :
    validateWorkflow wf = (true, none) := by
  have hfd : findDangling wf wf = none := (findDangling_eq_none _ _).mpr hres
  cases hscan : cycleScan wf wf ∅ with
  | some a =>
    exfalso
    obtain ⟨_, y, _, hyy⟩ := cycleScan_some_reaches wf wf ∅ a hscan
    exact hacyc y hyy
  | none => simp [validateWorkflow, hfd, hscan]

/-- C10: adding two tasks under the same registered agent identifier appends
both; with resolvable references and an acyclic dependency graph the workflow
still passes validation, yet `execute` raises an uncaught
`ValueError("Workflow has circular dependencies")` from the topological sort
(which runs before the exception handler), leaving the workflow status at
`running` with no task invoked. -/
theorem C10_duplicate_agent_id (env : Env) (st : OState) (ii : Option Dict)
    (aid : String) (d1 d2 : List String) (m1 m2 : List (String × String))
    (hreg : st.agents.contains aid = true) :
    ∃ st2, addTask st aid d1 m1 =
        .ok { st with workflow := st.workflow ++ [⟨aid, d1, m1⟩] } ∧
      addTask { st with workflow := st.workflow ++ [⟨aid, d1, m1⟩] } aid d2 m2 = .ok st2 ∧
      st2.workflow = st.workflow ++ [⟨aid, d1, m1⟩, ⟨aid, d2, m2⟩] ∧
      ((∀ t ∈ st2.workflow, ∀ d ∈ t.dependencies, d ∈ idsOf st2.workflow) →
        (∀ y, ¬ Relation.TransGen (dependsOn st2.workflow) y y) →
        validateWorkflow st2.workflow = (true, none) ∧
        (execute env st2 ii).1 = .error "Workflow has circular dependencies" ∧
        (execute env st2 ii).2.status = .RUNNING ∧
        (execute env st2 ii).2.invoked = []) := by
  have hmem : aid ∈ st.agents := by simpa [List.elem_iff] using hreg
  refine ⟨{ st with workflow := st.workflow ++ [⟨aid, d1, m1⟩, ⟨aid, d2, m2⟩] },
    ?_, ?_, rfl, ?_⟩
  · simp [addTask, hreg, hmem]
  · simp [addTask, hreg, hmem]
  · intro hres hacyc
    have hdup : ¬ (idsOf (st.workflow ++ [⟨aid, d1, m1⟩, ⟨aid, d2, m2⟩])).Nodup := by
      intro hnd
      simp only [idsOf, List.map_append] at hnd
      have := (List.nodup_append.mp hnd).2.1
      simp at this
    have hval := validate_true_of_acyclic hres hacyc
    have htopo := topologicalSort_error_of_dup hdup
    refine ⟨hval, ?_⟩
    simp only [execute, hval, if_pos rfl]
    cases ii with
    | none => simp [htopo]
    | some d =>
      by_cases hde : d.isEmpty
      · simp [htopo, hde]
      · simp [htopo, hde]

/-- State with one registered agent and no tasks, for the C10 witness. -/
def stW10 : OState := ⟨["a"], fun _ => .IDLE, [], .PENDING, [], [], []⟩

/-- Witness for C10 at a concrete input: adding the task `a` twice. -/
theorem C10_witness :
    ∃ st2, addTask stW10 "a" [] [] =
        .ok { stW10 with workflow := [⟨"a", [], []⟩] } ∧
      addTask { stW10 with workflow := [⟨"a", [], []⟩] } "a" [] [] = .ok st2 ∧
      st2.workflow = [⟨"a", [], []⟩, ⟨"a", [], []⟩] ∧
      validateWorkflow st2.workflow = (true, none) ∧
      (execute envA st2 none).1 = .error "Workflow has circular dependencies" ∧
      (execute envA st2 none).2.status = .RUNNING := by
  obtain ⟨st2, h1, h2, h3, h4⟩ :=
    C10_duplicate_agent_id envA stW10 none "a" [] [] [] [] (by decide)
  have hnorel : ∀ x y, ¬ dependsOn st2.workflow x y := by
    intro x y ⟨t, ht, _, hdep⟩
    rw [h3] at ht
    simp only [stW10, List.nil_append, List.mem_cons, List.not_mem_nil, or_false] at ht
    rcases ht with rfl | rfl <;> cases hdep
  obtain ⟨hval, herr, hstat, _⟩ := h4
    (by
      intro t ht d hd
      rw [h3] at ht
      simp only [stW10, List.nil_append, List.mem_cons, List.not_mem_nil, or_false] at ht
      rcases ht with rfl | rfl <;> cases hd)
    (by
      intro y hy
      obtain ⟨b, hb, _⟩ := Relation.TransGen.head'_iff.mp hy
      exact hnorel y b hb)
  exact ⟨st2, h1, h2, by simpa [stW10] using h3, hval, herr, hstat⟩

/-! ### Fail-fast execution (C3) and fault conversion (C4) -/

theorem stepState_invoked (env : Env) (st : OState) (a : String) (input : Dict)
    (r : AgentResult) : (stepState env st a input r).invoked = st.invoked ++ [a] := rfl

theorem stepState_results (env : Env) (st : OState) (a : String) (input : Dict)
    (r : AgentResult) : (stepState env st a input r).results = dictInsert st.results a r := rfl

theorem stepState_workflow (env : Env) (st : OState) (a : String) (input : Dict)
    (r : AgentResult) : (stepState env st a input r).workflow = st.workflow := rfl

theorem stepState_status_ne (env : Env) (st : OState) (a : String) (input : Dict)
    (r : AgentResult) {u : String} (h : u ≠ a) :
    (stepState env st a input r).agentStatus u = st.agentStatus u := by
  simp [stepState, logExec, h]

/-- Fail-fast shape of the task loop: whenever the returned summary carries a
`failed_at` id, the loop halted at that id with status "failed", the recorded
result under that id is the unsuccessful one whose error is reported, the
summary's result map is the store, and no id appearing after the failing one
in the order was ever invoked or had its agent status changed. -/
theorem runTasks_failed_at (env : Env) :
    ∀ (order : List String) (st st' : OState) (res : ExecResult) (t : String),
      order.Nodup →
      (∀ u ∈ order, u ∉ st.invoked) →
      runTasks env order st = (res, st') →
      res.failed_at = some t →
      res.status = "failed" ∧
      (∃ r, st'.results.lookup t = some r ∧ r.success = false ∧ res.error = r.error) ∧
      res.results = st'.results ∧
      ∃ pre post, order = pre ++ t :: post ∧
        ∀ u ∈ post, u ∉ st'.invoked ∧ st'.agentStatus u = st.agentStatus u := by
  intro order
  induction order with
  | nil =>
    intro st st' res t _ _ hrun hfa
    simp only [runTasks] at hrun
    rw [Prod.mk.injEq] at hrun
    obtain ⟨hres, _⟩ := hrun
    rw [← hres] at hfa
    cases hfa
  | cons a rest ih =>
    intro st st' res t hnd hninv hrun hfa
    cases hfind : findTaskW st.workflow a with
    | none =>
      simp only [runTasks, hfind] at hrun
      rw [Prod.mk.injEq] at hrun
      obtain ⟨hres, _⟩ := hrun
      rw [← hres] at hfa
      cases hfa
    | some task =>
      cases hbuild : buildInputData task st.results with
      | error e =>
        simp only [runTasks, hfind, hbuild] at hrun
        rw [Prod.mk.injEq] at hrun
        obtain ⟨hres, _⟩ := hrun
        rw [← hres] at hfa
        cases hfa
      | ok input =>
        by_cases hsucc : (env.process a input).success = true
        · -- the head task succeeded: recurse
          have hrun' : runTasks env rest
              (stepState env st a input (env.process a input)) = (res, st') := by
            simpa only [runTasks, hfind, hbuild, hsucc, if_true] using hrun
          have hnd' : rest.Nodup := (List.nodup_cons.mp hnd).2
          have hna : a ∉ rest := (List.nodup_cons.mp hnd).1
          have hninv' : ∀ u ∈ rest,
              u ∉ (stepState env st a input (env.process a input)).invoked := by
            intro u hu
            rw [stepState_invoked]
            intro hmem
            rcases List.mem_append.mp hmem with h1 | h2
            · exact hninv u (List.mem_cons_of_mem _ hu) h1
            · have : u = a := by simpa using h2
              exact hna (this ▸ hu)
          obtain ⟨h1, h2, h3, pre, post, hdec, hpost⟩ :=
            ih _ st' res t hnd' hninv' hrun' hfa
          refine ⟨h1, h2, h3, a :: pre, post, by rw [hdec]; rfl, ?_⟩
          intro u hu
          obtain ⟨hinv, hstat⟩ := hpost u hu
          have hut : u ∈ rest := by
            rw [hdec]
            exact List.mem_append.mpr (Or.inr (List.mem_cons_of_mem _ hu))
          have hua : u ≠ a := fun h => hna (h ▸ hut)
          exact ⟨hinv, hstat.trans (stepState_status_ne env st a input _ hua)⟩
        · -- the head task failed: halt here
          have hfail : (env.process a input).success = false := by
            cases hb : (env.process a input).success with
            | true => exact absurd hb hsucc
            | false => rfl
          have hrun' :
              ((⟨"failed", some a, (env.process a input).error,
                  (stepState env st a input (env.process a input)).results, none⟩ : ExecResult),
                { stepState env st a input (env.process a input) with status := .FAILED }) =
                (res, st') := by
            simpa only [runTasks, hfind, hbuild, hsucc, if_false] using hrun
          rw [Prod.mk.injEq] at hrun'
          obtain ⟨hres, hst⟩ := hrun'
          have hta : t = a := by
            rw [← hres] at hfa
            exact (Option.some.inj hfa).symm
          subst hta
          refine ⟨by rw [← hres], ?_, ?_, [], rest, rfl, ?_⟩
          · refine ⟨env.process t input, ?_, hfail, by rw [← hres]⟩
            rw [← hst]
            show (stepState env st t input (env.process t input)).results.lookup t = _
            rw [stepState_results]
            exact lookup_dictInsert_self _ _ _
          · rw [← hres, ← hst]
          · intro u hu
            have hna : t ∉ rest := (List.nodup_cons.mp hnd).1
            have hua : u ≠ t := fun h => hna (h ▸ hu)
            constructor
            · rw [← hst]
              show u ∉ (stepState env st t input (env.process t input)).invoked
              rw [stepState_invoked]
              intro hmem
              rcases List.mem_append.mp hmem with h1 | h2
              · exact hninv u (List.mem_cons_of_mem _ hu) h1
              · exact hua (by simpa using h2)
            · rw [← hst]
              show (stepState env st t input (env.process t input)).agentStatus u = _
              exact stepState_status_ne env st t input _ hua

/-- The orchestrator state right after validation passed: status running,
fresh result store and log, the seed input stored under `"__initial__"` when
truthy (non-`None` and non-empty). -/
def seededState (st : OState) (ii : Option Dict) : OState :=
  let st1 := { st with status := .RUNNING, results := [], execution_log := [], invoked := [] }
  match ii with
  | some d =>
    if d.isEmpty then st1
    else { st1 with results := dictInsert st1.results "__initial__" ⟨true, some d, none, none⟩ }
  | none => st1

theorem seededState_invoked (st : OState) (ii : Option Dict) :
    (seededState st ii).invoked = [] := by
  cases ii with
  | none => rfl
  | some d =>
    by_cases hd : d.isEmpty <;> simp [seededState, hd]

theorem seededState_agentStatus (st : OState) (ii : Option Dict) :
    (seededState st ii).agentStatus = st.agentStatus := by
  cases ii with
  | none => rfl
  | some d =>
    by_cases hd : d.isEmpty <;> simp [seededState, hd]

theorem seededState_workflow (st : OState) (ii : Option Dict) :
    (seededState st ii).workflow = st.workflow := by
  cases ii with
  | none => rfl
  | some d =>
    by_cases hd : d.isEmpty <;> simp [seededState, hd]

theorem execute_valid_eq (env : Env) (st : OState) (ii : Option Dict)
    (hval : (validateWorkflow st.workflow).1 = true) :
    execute env st ii =
      match topologicalSort st.workflow with
      | .error e => (.error e, seededState st ii)
      | .ok order => (Except.ok (runTasks env order (seededState st ii)).1,
          (runTasks env order (seededState st ii)).2) := by
  simp only [execute, hval, if_true]
  rfl

/-- C3: when `execute` returns a summary whose `failed_at` is set, the run
halted fail-fast at that task: status "failed", the recorded unsuccessful
result's error is reported, the summary carries the results gathered so far,
and every task after the failing one in the execution order was never invoked
and kept its prior agent status. -/
theorem C3_fail_fast_halts (env : Env) (st : OState) (ii : Option Dict)
    (res : ExecResult) (st' : OState) (t : String)
    (hexec : execute env st ii = (.ok res, st'))
    (hfa : res.failed_at = some t) :
    res.status = "failed" ∧
    (∃ r, st'.results.lookup t = some r ∧ r.success = false ∧ res.error = r.error) ∧
    res.results = st'.results ∧
    ∃ pre post, topologicalSort st.workflow = .ok (pre ++ t :: post) ∧
      ∀ u ∈ post, u ∉ st'.invoked ∧ st'.agentStatus u = st.agentStatus u := by
  by_cases hval : (validateWorkflow st.workflow).1 = true
  · rw [execute_valid_eq env st ii hval] at hexec
    cases htopo : topologicalSort st.workflow with
    | error e =>
      rw [htopo] at hexec
      have := congrArg Prod.fst hexec
      simp at this
    | ok order =>
      rw [htopo] at hexec
      rw [Prod.mk.injEq] at hexec
      obtain ⟨h1, h2⟩ := hexec
      have hrun : runTasks env order (seededState st ii) = (res, st') :=
        Prod.ext (Except.ok.inj h1) h2
      obtain ⟨hnodup, _, _⟩ := topologicalSort_ok_nodup htopo
      have hninv : ∀ u ∈ order, u ∉ (seededState st ii).invoked := by
        intro u _
        rw [seededState_invoked]
        exact List.not_mem_nil u
      obtain ⟨hstat, hlook, hres, pre, post, hdec, hpost⟩ :=
        runTasks_failed_at env order _ st' res t hnodup hninv hrun hfa
      refine ⟨hstat, hlook, hres, pre, post, congrArg Except.ok hdec, ?_⟩
      intro u hu
      obtain ⟨hi, hs⟩ := hpost u hu
      exact ⟨hi, hs.trans (congrFun (seededState_agentStatus st ii) u)⟩
  · exfalso
    have hfalse : (validateWorkflow st.workflow).1 = false := by
      cases hb : (validateWorkflow st.workflow).1 with
      | true => exact absurd hb hval
      | false => rfl
    simp only [execute, hfalse, Bool.false_eq_true, if_false] at hexec
    have := congrArg Prod.fst hexec
    simp at this

/-- Environment in which every agent fails with error "boom". -/
def envFail : Env := ⟨fun _ _ => ⟨false, none, some "boom", none⟩, none⟩

/-- Chain `A → B` used as C3 witness input. -/
def stW3 : OState :=
  ⟨["A", "B"], fun _ => .IDLE, [⟨"A", [], []⟩, ⟨"B", ["A"], []⟩], .PENDING, [], [], []⟩

/-- Witness for C3 at a concrete input: `A` fails, so `B` is never invoked
and stays idle. -/
theorem C3_witness :
    ∃ res st', execute envFail stW3 none = (.ok res, st') ∧
      res.status = "failed" ∧ res.failed_at = some "A" ∧ res.error = some "boom" ∧
      "B" ∉ st'.invoked ∧ st'.agentStatus "B" = .IDLE := by
  have hexec1 : (execute envFail stW3 none).1 =
      .ok ⟨"failed", some "A", some "boom",
        [("A", ⟨false, none, some "boom", none⟩)], none⟩ := by
    simp [execute, stW3, envFail, validateWorkflow, findDangling, cycleScan, hasCycle,
      hasCycleList, findTaskW, idsOf, List.find?, List.lookup, topologicalSort, initDeg,
      initGraph, buildGraph, kahnLoop, processDeps, decrDeg, dictInsert, List.filterMap,
      runTasks, stepState, buildInputData, buildInputGo, dictUpdate, applyMapping, logExec]
  have hexec : execute envFail stW3 none =
      (.ok ⟨"failed", some "A", some "boom",
        [("A", ⟨false, none, some "boom", none⟩)], none⟩,
        (execute envFail stW3 none).2) := Prod.ext hexec1 rfl
  obtain ⟨hstat, _, _, pre, post, htopo', hpost⟩ :=
    C3_fail_fast_halts envFail stW3 none _ _ "A" hexec rfl
  have hcomp : topologicalSort stW3.workflow = .ok ["A", "B"] := by
    simp [stW3, topologicalSort, initDeg, initGraph, buildGraph, kahnLoop, processDeps,
      decrDeg, dictInsert, List.filterMap, List.lookup]
  have hlist : pre ++ "A" :: post = ["A", "B"] :=
    Except.ok.inj (htopo'.symm.trans hcomp)
  have hpostB : post = ["B"] := by
    cases pre with
    | nil => simpa using hlist
    | cons p pre' =>
      exfalso
      simp only [List.cons_append, List.cons.injEq] at hlist
      obtain ⟨rfl, hrest⟩ := hlist
      cases pre' with
      | nil =>
        simp only [List.nil_append, List.cons.injEq] at hrest
        exact absurd hrest.1 (by decide)
      | cons q pre'' =>
        simp only [List.cons_append, List.cons.injEq] at hrest
        obtain ⟨_, hrest2⟩ := hrest
        exact absurd hrest2 (by simp)
  have hB := hpost "B" (hpostB ▸ List.mem_cons_self "B" [])
  exact ⟨_, _, hexec, hstat, rfl, rfl, hB.1, hB.2.trans rfl⟩

/-- C4 (amended): once validation has passed and the topological sort has
succeeded, `execute` cannot propagate an exception — it returns a result
normally — and any fault raised during dependency-result lookup or input
building inside the per-task loop is converted into a failed summary carrying
the fault's message and the results recorded so far.  (The topological sort
itself runs before the exception handler: its `ValueError` propagates, as the
counterexample shows.) -/
theorem C4_loop_faults_converted (env : Env) (st : OState) (ii : Option Dict)
    (order : List String)
    (hval : (validateWorkflow st.workflow).1 = true)
    (htopo : topologicalSort st.workflow = .ok order) :
    (∃ res st', execute env st ii = (.ok res, st')) ∧
    (∀ (a : String) (rest : List String) (st0 : OState) (task : AgentTask) (e : String),
      findTaskW st0.workflow a = some task →
      buildInputData task st0.results = .error e →
      runTasks env (a :: rest) st0 =
        (⟨"failed", none, some e, st0.results, none⟩, { st0 with status := .FAILED })) := by
  constructor
  · rw [execute_valid_eq env st ii hval, htopo]
    exact ⟨_, _, rfl⟩
  · intro a rest st0 task e hfind hbuild
    simp only [runTasks, hfind, hbuild]

/-- Two tasks with the same id: validation passes, but the topological sort
raises and `execute` propagates the exception instead of converting it. -/
def st4cx : OState :=
  ⟨["a"], fun _ => .IDLE, [⟨"a", [], []⟩, ⟨"a", [], []⟩], .PENDING, [], [], []⟩

/-- Counterexample to C4 as stated: in a workflow that passes validation, the
exception raised by the topological sort (part of "the scheduling step
itself") is NOT converted into a failed result — `execute` propagates it. -/
theorem C4_counterexample :
    validateWorkflow st4cx.workflow = (true, none) ∧
    (execute envA st4cx none).1 = .error "Workflow has circular dependencies" ∧
    ∀ res st', execute envA st4cx none ≠ (.ok res, st') := by
  have hval : validateWorkflow st4cx.workflow = (true, none) := by
    simp [st4cx, validateWorkflow, findDangling, cycleScan, hasCycle, hasCycleList,
      findTaskW, idsOf, List.find?]
  have htopo : topologicalSort st4cx.workflow =
      .error "Workflow has circular dependencies" := by
    apply topologicalSort_error_of_dup
    decide
  have hfst : (execute envA st4cx none).1 = .error "Workflow has circular dependencies" := by
    rw [execute_valid_eq envA st4cx none (by rw [hval]), htopo]
  refine ⟨hval, hfst, ?_⟩
  intro res st' heq
  have := congrArg Prod.fst heq
  rw [hfst] at this
  cases this

/-- Witness input for the amended C4: a well-formed single-task workflow. -/
def stW4 : OState := ⟨["A"], fun _ => .IDLE, [⟨"A", [], []⟩], .PENDING, [], [], []⟩

/-- Witness for the amended C4 at a concrete input. -/
theorem C4_witness :
    ∃ res st', execute envA stW4 none = (.ok res, st') := by
  have hval : (validateWorkflow stW4.workflow).1 = true := by
    simp [stW4, validateWorkflow, findDangling, cycleScan, hasCycle, hasCycleList,
      findTaskW, idsOf, List.find?]
  have htopo : topologicalSort stW4.workflow = .ok ["A"] := by
    simp [stW4, topologicalSort, initDeg, initGraph, buildGraph, kahnLoop, processDeps,
      decrDeg, dictInsert, List.filterMap, List.lookup]
  exact (C4_loop_faults_converted envA stW4 none ["A"] hval htopo).1

/-! ### Kahn's algorithm: full correctness on well-formed workflows (C2) -/

theorem lookup_mem {β : Type} : ∀ {m : List (String × β)} {k : String} {v : β},
    m.lookup k = some v → (k, v) ∈ m := by
  intro m
  induction m with
  | nil => intro k v h; cases h
  | cons p t ih =>
    intro k v h
    obtain ⟨k0, v0⟩ := p
    by_cases hk : k = k0
    · subst hk
      simp only [List.lookup, beq_self_eq_true] at h
      cases h
      exact List.mem_cons_self _ _
    · have hb : (k == k0) = false := by simp [hk]
      simp only [List.lookup, hb] at h
      exact List.mem_cons_of_mem _ (ih h)

theorem processDeps_lookup : ∀ (L : List String) (deg : List (String × Int))
    (q : List String) (x : String),
    (processDeps L deg q).1.lookup x = (deg.lookup x).map (· - (L.count x : Int)) := by
  intro L
  induction L with
  | nil =>
    intro deg q x
    simp only [processDeps, List.count_nil]
    cases deg.lookup x <;> simp
  | cons d ds ih =>
    intro deg q x
    rw [processDeps_step, ih]
    by_cases hx : x = d
    · subst hx
      rw [lookup_decrDeg_self]
      simp only [List.count_cons_self]
      cases deg.lookup x <;> simp <;> ring
    · rw [lookup_decrDeg_ne deg hx]
      have hcnt : (d :: ds).count x = ds.count x := by
        simp [List.count_cons, hx]
      rw [hcnt]

/-- Whether `processDeps` enqueues `x`: its in-degree starts at least 1 and
falls to exactly zero within the decrements of `L`. -/
def enqBonus (deg : List (String × Int)) (L : List String) (x : String) : Nat :=
  match deg.lookup x with
  | some v => if 1 ≤ v ∧ v ≤ (L.count x : Int) then 1 else 0
  | none => 0

theorem processDeps_queue_count : ∀ (L : List String) (deg : List (String × Int))
    (q : List String) (x : String),
    (processDeps L deg q).2.count x = q.count x + enqBonus deg L x := by
  intro L
  induction L with
  | nil =>
    intro deg q x
    simp only [processDeps]
    have hb : enqBonus deg [] x = 0 := by
      cases hv : deg.lookup x with
      | none => simp [enqBonus, hv]
      | some v =>
        simp only [enqBonus, hv]
        have hc : ¬(1 ≤ v ∧ v ≤ (List.count x ([] : List String) : Int)) := by
          simp only [List.count_nil, Nat.cast_zero]
          omega
        rw [if_neg hc]
    rw [hb]
    omega
  | cons d ds ih =>
    intro deg q x
    rw [processDeps_step, ih]
    by_cases hx : x = d
    · subst hx
      by_cases hz : (decrDeg deg x).lookup x = some 0
      · rw [if_pos hz]
        have hq : (q ++ [x]).count x = q.count x + 1 := by
          simp [List.count_append]
        rw [hq]
        have hv1 : deg.lookup x = some 1 := by
          have h := lookup_decrDeg_self deg x
          rw [hz] at h
          cases hv : deg.lookup x with
          | none => rw [hv] at h; simp at h
          | some v =>
            rw [hv] at h
            simp only [Option.map_some'] at h
            have h0 : (0 : Int) = v - 1 := Option.some.inj h
            have h1 : v = 1 := by omega
            rw [h1]
        have hb1 : enqBonus deg (x :: ds) x = 1 := by
          simp only [enqBonus, hv1]
          rw [if_pos]
          refine ⟨le_refl 1, ?_⟩
          rw [List.count_cons_self]
          push_cast
          omega
        have hb2 : enqBonus (decrDeg deg x) ds x = 0 := by
          have hdec : (decrDeg deg x).lookup x = some 0 := hz
          simp only [enqBonus, hdec]
          rw [if_neg (by omega)]
        rw [hb1, hb2]
      · rw [if_neg hz]
        have hb : enqBonus (decrDeg deg x) ds x = enqBonus deg (x :: ds) x := by
          cases hv : deg.lookup x with
          | none =>
            have hdec : (decrDeg deg x).lookup x = none := by
              rw [lookup_decrDeg_self, hv]
              rfl
            simp only [enqBonus, hv, hdec]
          | some v =>
            have hdec : (decrDeg deg x).lookup x = some (v - 1) := by
              rw [lookup_decrDeg_self, hv]
              rfl
            have hvne : v ≠ 1 := by
              intro h1
              apply hz
              rw [hdec, h1]
              norm_num
            simp only [enqBonus, hv, hdec]
            have hcnt : ((x :: ds).count x : Int) = (ds.count x : Int) + 1 := by
              rw [List.count_cons_self]
              push_cast
              ring
            rw [hcnt]
            by_cases hc : 1 ≤ v - 1 ∧ v - 1 ≤ (ds.count x : Int)
            · rw [if_pos hc, if_pos (by omega)]
            · rw [if_neg hc, if_neg (by omega)]
        rw [hb]
    · have hlk : (decrDeg deg d).lookup x = deg.lookup x := lookup_decrDeg_ne deg hx
      have hcnt : (d :: ds).count x = ds.count x := by
        simp [List.count_cons, hx]
      have hb : enqBonus (decrDeg deg d) ds x = enqBonus deg (d :: ds) x := by
        simp only [enqBonus, hlk, hcnt]
      rw [hb]
      by_cases hz : (decrDeg deg d).lookup d = some 0
      · rw [if_pos hz]
        have hq : (q ++ [d]).count x = q.count x := by
          simp [List.count_append, List.count_cons, hx]
        rw [hq]
      · rw [if_neg hz]

theorem nodup_processDeps_queue {L : List String} {deg : List (String × Int)}
    {q : List String} (hq : q.Nodup)
    (hzero : ∀ x ∈ q, deg.lookup x = some 0) :
    (processDeps L deg q).2.Nodup := by
  rw [List.nodup_iff_count_le_one]
  intro x
  rw [processDeps_queue_count]
  by_cases hxq : x ∈ q
  · have h1 : q.count x = 1 := List.count_eq_one_of_mem hq hxq
    have h0 : enqBonus deg L x = 0 := by
      simp only [enqBonus, hzero x hxq]
      rw [if_neg (by omega)]
    omega
  · have h1 : q.count x = 0 := List.count_eq_zero_of_not_mem hxq
    have h2 : enqBonus deg L x ≤ 1 := by
      cases hv : deg.lookup x with
      | none => simp [enqBonus, hv]
      | some v =>
        simp only [enqBonus, hv]
        by_cases hc : 1 ≤ v ∧ v ≤ (L.count x : Int)
        · rw [if_pos hc]
        · rw [if_neg hc]
          omega
    omega

theorem mem_processDeps_queue {L : List String} {deg : List (String × Int)}
    {q : List String} {x : String} :
    x ∈ (processDeps L deg q).2 ↔
      x ∈ q ∨ ∃ v, deg.lookup x = some v ∧ 1 ≤ v ∧ v ≤ (L.count x : Int) := by
  have hcount := processDeps_queue_count L deg q x
  constructor
  · intro hx
    have hpos : 0 < (processDeps L deg q).2.count x := List.count_pos_iff_mem.mpr hx
    by_cases hxq : x ∈ q
    · exact Or.inl hxq
    · have h0 : q.count x = 0 := List.count_eq_zero_of_not_mem hxq
      have hb : 0 < enqBonus deg L x := by omega
      cases hv : deg.lookup x with
      | none =>
        exfalso
        simp [enqBonus, hv] at hb
      | some v =>
        by_cases hc : 1 ≤ v ∧ v ≤ (L.count x : Int)
        · exact Or.inr ⟨v, rfl, hc⟩
        · exfalso
          simp only [enqBonus, hv] at hb
          rw [if_neg hc] at hb
          omega
  · intro hx
    rcases hx with hxq | ⟨v, hv, hc⟩
    · have : 0 < q.count x := List.count_pos_iff_mem.mpr hxq
      have : 0 < (processDeps L deg q).2.count x := by omega
      exact List.count_pos_iff_mem.mp this
    · have hb : enqBonus deg L x = 1 := by
        simp only [enqBonus, hv]
        rw [if_pos hc]
      have : 0 < (processDeps L deg q).2.count x := by omega
      exact List.count_pos_iff_mem.mp this

theorem initDeg_fold_lookup_out :
    ∀ (wf : List AgentTask) (m : List (String × Int)) (x : String), x ∉ idsOf wf →
      (wf.foldl (fun m t => dictInsert m t.agent_id (t.dependencies.length : Int)) m).lookup x
        = m.lookup x := by
  intro wf
  induction wf with
  | nil => intro m x _; rfl
  | cons t ts ih =>
    intro m x hx
    simp only [idsOf, List.map_cons, List.mem_cons, not_or] at hx
    simp only [List.foldl_cons]
    rw [ih _ x (by simpa [idsOf] using hx.2)]
    exact lookup_dictInsert_ne m t.agent_id x _ hx.1

theorem initDeg_lookup {wf : List AgentTask} (hnd : (idsOf wf).Nodup) :
    ∀ t ∈ wf, (initDeg wf).lookup t.agent_id = some (t.dependencies.length : Int) := by
  unfold initDeg
  generalize ([] : List (String × Int)) = m
  induction wf generalizing m with
  | nil => intro t ht; cases ht
  | cons u us ih =>
    intro t ht
    simp only [idsOf, List.map_cons, List.nodup_cons] at hnd
    simp only [List.foldl_cons]
    rcases List.mem_cons.mp ht with rfl | ht'
    · rw [initDeg_fold_lookup_out us _ t.agent_id (by simpa [idsOf] using hnd.1)]
      exact lookup_dictInsert_self m t.agent_id _
    · exact ih hnd.2 _ t ht'

theorem initGraph_fold_lookup :
    ∀ (wf : List AgentTask) (m : List (String × List String)) (x : String),
      (wf.foldl (fun m t => dictInsert m t.agent_id ([] : List String)) m).lookup x =
        if x ∈ idsOf wf then some [] else m.lookup x := by
  intro wf
  induction wf with
  | nil =>
    intro m x
    simp [idsOf]
  | cons t ts ih =>
    intro m x
    simp only [List.foldl_cons]
    rw [ih]
    by_cases hx : x ∈ idsOf ts
    · rw [if_pos hx, if_pos (by simp [idsOf] at hx ⊢; tauto)]
    · rw [if_neg hx]
      by_cases hxt : x = t.agent_id
      · subst hxt
        rw [lookup_dictInsert_self, if_pos (by simp [idsOf])]
      · rw [lookup_dictInsert_ne m _ _ _ hxt, if_neg]
        simp only [idsOf, List.map_cons, List.mem_cons, not_or]
        exact ⟨hxt, by simpa [idsOf] using hx⟩

/-- Per-key contribution of the edge-building loop, task by task: each task
appends its id once per occurrence of the key among its dependencies. -/
def bigAppend (wf : List AgentTask) (k : String) : List String :=
  wf.foldr (fun t acc => List.replicate (t.dependencies.count k) t.agent_id ++ acc) []

theorem bigAppend_cons (t : AgentTask) (ts : List AgentTask) (k : String) :
    bigAppend (t :: ts) k =
      List.replicate (t.dependencies.count k) t.agent_id ++ bigAppend ts k := rfl

theorem innerFold_lookup (tid : String) :
    ∀ (deps : List String) (g : List (String × List String)) (k : String),
      (deps.foldl
        (fun g d =>
          if (g.lookup d).isSome then dictInsert g d (((g.lookup d).getD []) ++ [tid])
          else g) g).lookup k =
      (g.lookup k).map (· ++ List.replicate (deps.count k) tid) := by
  intro deps
  induction deps with
  | nil =>
    intro g k
    simp only [List.foldl_nil, List.count_nil, List.replicate_zero]
    cases g.lookup k <;> simp
  | cons d ds ih =>
    intro g k
    simp only [List.foldl_cons]
    rw [ih]
    by_cases hk : k = d
    · subst hk
      cases hg : g.lookup k with
      | none =>
        have hc : ¬((none : Option (List String)).isSome = true) := by simp
        rw [if_neg hc, hg]
        rfl
      | some l =>
        have hc : ((some l).isSome = true) := rfl
        rw [if_pos hc, lookup_dictInsert_self]
        simp only [Option.getD_some, Option.map_some', Option.some.injEq,
          List.count_cons_self, List.append_assoc, List.replicate_succ]
        rfl
    · have hcnt : (d :: ds).count k = ds.count k := by
        simp [List.count_cons, hk]
      rw [hcnt]
      by_cases hs : (g.lookup d).isSome
      · rw [if_pos hs, lookup_dictInsert_ne g _ _ _ hk]
      · rw [if_neg hs]

theorem buildGraph_lookup :
    ∀ (wf : List AgentTask) (g : List (String × List String)) (k : String),
      (buildGraph wf g).lookup k = (g.lookup k).map (· ++ bigAppend wf k) := by
  intro wf
  induction wf with
  | nil =>
    intro g k
    simp only [buildGraph, List.foldl_nil, bigAppend]
    cases g.lookup k <;> simp
  | cons t ts ih =>
    intro g k
    have hstep : buildGraph (t :: ts) g = buildGraph ts
        (t.dependencies.foldl
          (fun g d =>
            if (g.lookup d).isSome then dictInsert g d (((g.lookup d).getD []) ++ [t.agent_id])
            else g) g) := rfl
    rw [hstep, ih, innerFold_lookup, bigAppend_cons]
    cases g.lookup k <;> simp

theorem count_bigAppend_of_not_mem {wf : List AgentTask} {x : String}
    (hx : x ∉ idsOf wf) (a : String) : (bigAppend wf a).count x = 0 := by
  induction wf with
  | nil => rfl
  | cons t ts ih =>
    simp only [idsOf, List.map_cons, List.mem_cons, not_or] at hx
    rw [bigAppend_cons, List.count_append]
    have h1 : (List.replicate (t.dependencies.count a) t.agent_id).count x = 0 := by
      simp [List.count_replicate, Ne.symm hx.1]
    have h2 : (bigAppend ts a).count x = 0 := ih (by simpa [idsOf] using hx.2)
    omega

theorem count_bigAppend {wf : List AgentTask} (hnd : (idsOf wf).Nodup)
    (a x : String) : (bigAppend wf a).count x = (depsOfF wf x).count a := by
  induction wf with
  | nil => rfl
  | cons t ts ih =>
    simp only [idsOf, List.map_cons, List.nodup_cons] at hnd
    rw [bigAppend_cons, List.count_append]
    by_cases hx : x = t.agent_id
    · subst hx
      have h1 : (List.replicate (t.dependencies.count a) t.agent_id).count t.agent_id =
          t.dependencies.count a := by
        simp [List.count_replicate]
      have h2 : (bigAppend ts a).count t.agent_id = 0 :=
        count_bigAppend_of_not_mem (by simpa [idsOf] using hnd.1) a
      have h3 : depsOfF (t :: ts) t.agent_id = t.dependencies := by
        unfold depsOfF findTaskW
        simp [List.find?]
      rw [h1, h2, h3]
      omega
    · have h1 : (List.replicate (t.dependencies.count a) t.agent_id).count x = 0 := by
        simp [List.count_replicate, Ne.symm hx]
      have h3 : depsOfF (t :: ts) x = depsOfF ts x := by
        unfold depsOfF findTaskW
        have hb : (t.agent_id == x) = false := by simp [Ne.symm hx]
        simp [List.find?, hb]
      rw [h1, h3, ih hnd.2]
      omega

/-- Adjacency actually used by the Kahn loop. -/
theorem graphAt_count {wf : List AgentTask} (hnd : (idsOf wf).Nodup)
    {a : String} (ha : a ∈ idsOf wf) (x : String) :
    (((buildGraph wf (initGraph wf)).lookup a).getD []).count x =
      (depsOfF wf x).count a := by
  rw [buildGraph_lookup]
  unfold initGraph
  rw [initGraph_fold_lookup wf [] a, if_pos ha]
  simp only [Option.map_some', Option.getD_some, List.nil_append]
  exact count_bigAppend hnd a x

/-- Number of entries of a dependency list not yet finished (not in `res`). -/
def pendCount (res : List String) : List String → Nat
  | [] => 0
  | d :: ds => (if d ∈ res then 0 else 1) + pendCount res ds

theorem pendCount_append {a : String} {res : List String} (ha : a ∉ res) :
    ∀ deps : List String,
      pendCount (res ++ [a]) deps + deps.count a = pendCount res deps := by
  intro deps
  induction deps with
  | nil => rfl
  | cons d ds ih =>
    by_cases hda : d = a
    · subst hda
      have h1 : d ∈ res ++ [d] := by simp
      simp only [pendCount, List.count_cons_self, if_pos h1, if_neg ha]
      omega
    · have hb : (d == a) = false := by simp [hda]
      by_cases hdr : d ∈ res
      · have h1 : d ∈ res ++ [a] := List.mem_append.mpr (Or.inl hdr)
        simp only [pendCount, List.count_cons, hb, Bool.false_eq_true, if_false,
          if_pos h1, if_pos hdr]
        omega
      · have h1 : d ∉ res ++ [a] := by
          intro hm
          rcases List.mem_append.mp hm with h | h
          · exact hdr h
          · exact hda (by simpa using h)
        simp only [pendCount, List.count_cons, hb, Bool.false_eq_true, if_false,
          if_neg h1, if_neg hdr]
        omega

theorem pendCount_zero_iff (res : List String) :
    ∀ deps : List String, (pendCount res deps = 0 ↔ ∀ d ∈ deps, d ∈ res) := by
  intro deps
  induction deps with
  | nil => simp [pendCount]
  | cons d ds ih =>
    simp only [pendCount, List.mem_cons]
    by_cases hdr : d ∈ res
    · rw [if_pos hdr]
      simp only [Nat.zero_add]
      rw [ih]
      constructor
      · rintro h x (rfl | hx)
        · exact hdr
        · exact h x hx
      · intro h x hx
        exact h x (Or.inr hx)
    · rw [if_neg hdr]
      constructor
      · intro h
        exact absurd h (by omega)
      · intro h
        exact absurd (h d (Or.inl rfl)) hdr

theorem pendCount_nil : ∀ deps : List String, pendCount [] deps = deps.length := by
  intro deps
  induction deps with
  | nil => rfl
  | cons d ds ih =>
    simp only [pendCount, List.length_cons, ih]
    simp only [List.not_mem_nil, if_false]
    omega

/-- The value Kahn's loop keeps in `in_degree[x]` once the tasks of `res`
have been popped: the number of dependencies of `x` outside `res`. -/
def pendingN (wf : List AgentTask) (res : List String) (x : String) : Nat :=
  pendCount res (depsOfF wf x)

theorem pendingN_append {wf : List AgentTask} {a : String} {res : List String}
    (ha : a ∉ res) (x : String) :
    pendingN wf (res ++ [a]) x + (depsOfF wf x).count a = pendingN wf res x :=
  pendCount_append ha _

theorem pendingN_zero_iff {wf : List AgentTask} {res : List String} {x : String} :
    pendingN wf res x = 0 ↔ ∀ d ∈ depsOfF wf x, d ∈ res :=
  pendCount_zero_iff res _

theorem pendingN_nil (wf : List AgentTask) (x : String) :
    pendingN wf [] x = (depsOfF wf x).length :=
  pendCount_nil _

theorem depsOfF_of_mem {wf : List AgentTask} (hnd : (idsOf wf).Nodup)
    {t : AgentTask} (ht : t ∈ wf) : depsOfF wf t.agent_id = t.dependencies := by
  unfold depsOfF
  rw [findTaskW_eq_of_nodup hnd ht]

theorem exists_task_of_mem_ids {wf : List AgentTask} {x : String}
    (hx : x ∈ idsOf wf) : ∃ t ∈ wf, t.agent_id = x := by
  rcases List.mem_map.mp hx with ⟨t, ht, rfl⟩
  exact ⟨t, ht, rfl⟩

theorem depsOfF_mem_ids {wf : List AgentTask} (hnd : (idsOf wf).Nodup)
    (hdeps : ∀ t ∈ wf, ∀ d ∈ t.dependencies, d ∈ idsOf wf)
    {x d : String} (hd : d ∈ depsOfF wf x) : d ∈ idsOf wf := by
  unfold depsOfF at hd
  cases hfind : findTaskW wf x with
  | none => rw [hfind] at hd; cases hd
  | some t =>
    rw [hfind] at hd
    have ht : t ∈ wf := by
      unfold findTaskW at hfind
      exact List.mem_of_find?_eq_some hfind
    exact hdeps t ht d hd

theorem dictInsert_of_not_key {β : Type} :
    ∀ (m : List (String × β)) (k : String) (v : β),
      (∀ p ∈ m, p.1 ≠ k) → dictInsert m k v = m ++ [(k, v)] := by
  intro m
  induction m with
  | nil => intro k v _; rfl
  | cons p t ih =>
    intro k v h
    obtain ⟨k', v'⟩ := p
    have hne : k' ≠ k := h (k', v') (List.mem_cons_self _ _)
    simp only [dictInsert, if_neg hne, List.cons_append, List.cons.injEq, true_and]
    exact ih k v (fun q hq => h q (List.mem_cons_of_mem _ hq))

theorem initDeg_eq_go :
    ∀ (wf : List AgentTask) (m : List (String × Int)), (idsOf wf).Nodup →
      (∀ p ∈ m, p.1 ∉ idsOf wf) →
      wf.foldl (fun m t => dictInsert m t.agent_id (t.dependencies.length : Int)) m =
        m ++ wf.map (fun t => (t.agent_id, (t.dependencies.length : Int))) := by
  intro wf
  induction wf with
  | nil => intro m _ _; simp
  | cons t ts ih =>
    intro m hnd hm
    simp only [idsOf, List.map_cons, List.nodup_cons] at hnd
    simp only [List.foldl_cons, List.map_cons]
    have hins : dictInsert m t.agent_id (t.dependencies.length : Int) =
        m ++ [(t.agent_id, (t.dependencies.length : Int))] := by
      apply dictInsert_of_not_key
      intro p hp hpk
      exact hm p hp (by simp [idsOf, hpk])
    rw [hins, ih (m ++ [(t.agent_id, (t.dependencies.length : Int))])
      (by simpa [idsOf] using hnd.2) ?disj]
    · simp
    case disj =>
      intro p hp
      rcases List.mem_append.mp hp with h | h
      · intro hin
        exact hm p h (by simp [idsOf]; exact Or.inr (by simpa [idsOf] using hin))
      · have : p = (t.agent_id, (t.dependencies.length : Int)) := by simpa using h
        rw [this]
        simpa [idsOf] using hnd.1

theorem initDeg_eq {wf : List AgentTask} (hnd : (idsOf wf).Nodup) :
    initDeg wf = wf.map (fun t => (t.agent_id, (t.dependencies.length : Int))) := by
  unfold initDeg
  rw [initDeg_eq_go wf [] hnd (by intro p hp; cases hp)]
  rfl

theorem filterMap_if_sublist {α β : Type} (p : α → Prop) [DecidablePred p] (f : α → β) :
    ∀ l : List α,
      List.Sublist (l.filterMap (fun t => if p t then some (f t) else none)) (l.map f) := by
  intro l
  induction l with
  | nil => exact List.Sublist.refl _
  | cons a t ih =>
    simp only [List.filterMap_cons, List.map_cons]
    by_cases hp : p a
    · rw [if_pos hp]
      exact List.Sublist.cons₂ _ ih
    · rw [if_neg hp]
      exact List.Sublist.cons _ ih

/-- The invariant of Kahn's loop for a workflow with distinct task identifiers:
`res` is the Nodup finished prefix, closed under dependencies and
dependency-ordered, the degree table holds exactly the number of unfinished
dependencies of every task, and the queue holds exactly the unfinished tasks
whose dependencies are all finished. -/
structure KInv (wf : List AgentTask) (deg : List (String × Int))
    (queue res : List String) : Prop where
  keys : ∀ x v, deg.lookup x = some v → x ∈ idsOf wf
  val : ∀ x ∈ idsOf wf, deg.lookup x = some ((pendingN wf res x : Int))
  rsub : ∀ x ∈ res, x ∈ idsOf wf
  qsub : ∀ x ∈ queue, x ∈ idsOf wf
  rnd : res.Nodup
  qnd : queue.Nodup
  disj : ∀ x ∈ queue, x ∉ res
  q0 : ∀ x ∈ queue, pendingN wf res x = 0
  qcomp : ∀ x ∈ idsOf wf, x ∉ res → pendingN wf res x = 0 → x ∈ queue
  ord : ∀ x ∈ res, ∀ d ∈ depsOfF wf x, d ∈ res ∧ res.indexOf d < res.indexOf x

theorem KInv_init {wf : List AgentTask} (hnd : (idsOf wf).Nodup) :
    KInv wf (initDeg wf)
      ((initDeg wf).filterMap (fun p => if p.2 = 0 then some p.1 else none)) [] := by
  have hq : ((initDeg wf).filterMap (fun p => if p.2 = 0 then some p.1 else none)) =
      wf.filterMap (fun t =>
        if (t.dependencies.length : Int) = 0 then some t.agent_id else none) := by
    rw [initDeg_eq hnd, List.filterMap_map]
    rfl
  have hmemq : ∀ x, x ∈ ((initDeg wf).filterMap
      (fun p => if p.2 = 0 then some p.1 else none)) ↔
      ∃ t ∈ wf, t.agent_id = x ∧ t.dependencies = [] := by
    intro x
    rw [hq, List.mem_filterMap]
    constructor
    · rintro ⟨t, ht, hsome⟩
      by_cases hz : (t.dependencies.length : Int) = 0
      · rw [if_pos hz] at hsome
        refine ⟨t, ht, by simpa using hsome, ?_⟩
        have hlen : t.dependencies.length = 0 := by exact_mod_cast hz
        exact List.length_eq_zero.mp hlen
      · rw [if_neg hz] at hsome
        cases hsome
    · rintro ⟨t, ht, rfl, hdep⟩
      refine ⟨t, ht, ?_⟩
      rw [if_pos (by simp [hdep])]
  refine ⟨?_, ?_, ?_, ?_, ?_, ?_, ?_, ?_, ?_, ?_⟩
  · intro x v hsome
    by_contra hx
    unfold initDeg at hsome
    rw [initDeg_fold_lookup_out wf [] x hx] at hsome
    cases hsome
  · intro x hx
    rcases exists_task_of_mem_ids hx with ⟨t, ht, rfl⟩
    rw [initDeg_lookup hnd t ht, pendingN_nil, depsOfF_of_mem hnd ht]
  · intro x hx; cases hx
  · intro x hx
    rcases (hmemq x).mp hx with ⟨t, ht, rfl, _⟩
    exact List.mem_map.mpr ⟨t, ht, rfl⟩
  · exact List.nodup_nil
  · rw [hq]
    exact ((filterMap_if_sublist _ _ wf).nodup hnd)
  · intro x _ hx
    cases hx
  · intro x hx
    rcases (hmemq x).mp hx with ⟨t, ht, rfl, hdep⟩
    rw [pendingN_nil, depsOfF_of_mem hnd ht, hdep]
    rfl
  · intro x hx _ hpend
    rcases exists_task_of_mem_ids hx with ⟨t, ht, rfl⟩
    rw [pendingN_nil, depsOfF_of_mem hnd ht] at hpend
    exact (hmemq t.agent_id).mpr ⟨t, ht, rfl, List.length_eq_zero.mp hpend⟩
  · intro x hx
    cases hx

theorem KInv_step {wf : List AgentTask} (hnd : (idsOf wf).Nodup)
    {deg : List (String × Int)} {a : String} {rest res : List String}
    (inv : KInv wf deg (a :: rest) res) :
    KInv wf
      (processDeps (((buildGraph wf (initGraph wf)).lookup a).getD []) deg rest).1
      (processDeps (((buildGraph wf (initGraph wf)).lookup a).getD []) deg rest).2
      (res ++ [a]) := by
  have ha_mem : a ∈ idsOf wf := inv.qsub a (List.mem_cons_self a rest)
  have ha_res : a ∉ res := inv.disj a (List.mem_cons_self a rest)
  have hLc : ∀ x, (((buildGraph wf (initGraph wf)).lookup a).getD []).count x
      = (depsOfF wf x).count a := fun x => graphAt_count hnd ha_mem x
  have ha_rest : a ∉ rest := by
    have h := inv.qnd
    rw [List.nodup_cons] at h
    exact h.1
  have hrestnd : rest.Nodup := by
    have h := inv.qnd
    rw [List.nodup_cons] at h
    exact h.2
  have hpend_eq : ∀ x, pendingN wf (res ++ [a]) x + (depsOfF wf x).count a
      = pendingN wf res x := fun x => pendingN_append ha_res x
  have hnew : ∀ x v, deg.lookup x = some v → 1 ≤ v →
      v ≤ ((((buildGraph wf (initGraph wf)).lookup a).getD []).count x : Int) →
      x ∈ idsOf wf ∧ x ∉ res ∧ x ≠ a ∧ pendingN wf (res ++ [a]) x = 0 := by
    intro x v hv h1 h2
    rw [hLc x] at h2
    have hx : x ∈ idsOf wf := inv.keys x v hv
    have hveq : v = (pendingN wf res x : Int) := by
      have h := inv.val x hx
      rw [hv] at h
      exact Option.some.inj h
    have hxres : x ∉ res := by
      intro hxr
      have h0 : pendingN wf res x = 0 :=
        pendingN_zero_iff.mpr (fun d hd => (inv.ord x hxr d hd).1)
      rw [hveq, h0] at h1
      omega
    have hxa : x ≠ a := by
      intro hxe
      subst hxe
      have h0 : pendingN wf res x = 0 := inv.q0 x (List.mem_cons_self x rest)
      rw [hveq, h0] at h1
      omega
    have hp0 : pendingN wf (res ++ [a]) x = 0 := by
      have heq := hpend_eq x
      rw [hveq] at h2
      have hle : pendingN wf res x ≤ (depsOfF wf x).count a := by exact_mod_cast h2
      omega
    exact ⟨hx, hxres, hxa, hp0⟩
  refine ⟨?_, ?_, ?_, ?_, ?_, ?_, ?_, ?_, ?_, ?_⟩
  · intro x v hsome
    rw [processDeps_lookup] at hsome
    cases hv : deg.lookup x with
    | none =>
      rw [hv] at hsome
      simp at hsome
    | some w => exact inv.keys x w hv
  · intro x hx
    rw [processDeps_lookup, inv.val x hx]
    simp only [Option.map_some']
    congr 1
    have heq := hpend_eq x
    rw [hLc x]
    omega
  · intro x hx
    rcases List.mem_append.mp hx with h | h
    · exact inv.rsub x h
    · have hxa : x = a := by simpa using h
      rw [hxa]
      exact ha_mem
  · intro x hx
    rcases mem_processDeps_queue.mp hx with h | ⟨v, hv, h1, h2⟩
    · exact inv.qsub x (List.mem_cons_of_mem a h)
    · exact inv.keys x v hv
  · rw [List.nodup_append]
    refine ⟨inv.rnd, List.nodup_singleton a, ?_⟩
    intro x hx hxa
    have hxe : x = a := by simpa using hxa
    subst hxe
    exact ha_res hx
  · apply nodup_processDeps_queue hrestnd
    intro x hx
    have hxids := inv.qsub x (List.mem_cons_of_mem a hx)
    have h0 := inv.q0 x (List.mem_cons_of_mem a hx)
    rw [inv.val x hxids, h0]
    norm_num
  · intro x hx
    rcases mem_processDeps_queue.mp hx with h | ⟨v, hv, h1, h2⟩
    · intro hmem
      rcases List.mem_append.mp hmem with hr | ha'
      · exact inv.disj x (List.mem_cons_of_mem a h) hr
      · have hxe : x = a := by simpa using ha'
        exact ha_rest (hxe ▸ h)
    · obtain ⟨hxids, hxres, hxa, hp0⟩ := hnew x v hv h1 h2
      intro hmem
      rcases List.mem_append.mp hmem with hr | ha'
      · exact hxres hr
      · exact hxa (by simpa using ha')
  · intro x hx
    rcases mem_processDeps_queue.mp hx with h | ⟨v, hv, h1, h2⟩
    · have h0 := inv.q0 x (List.mem_cons_of_mem a h)
      have heq := hpend_eq x
      omega
    · exact (hnew x v hv h1 h2).2.2.2
  · intro x hx hxr' hp0
    have hxres : x ∉ res := fun h => hxr' (List.mem_append.mpr (Or.inl h))
    have hxa : x ≠ a := fun h => hxr' (List.mem_append.mpr (Or.inr (by simp [h])))
    have heq := hpend_eq x
    by_cases h0 : pendingN wf res x = 0
    · have hq := inv.qcomp x hx hxres h0
      rcases List.mem_cons.mp hq with h | h
      · exact absurd h hxa
      · exact mem_processDeps_queue.mpr (Or.inl h)
    · refine mem_processDeps_queue.mpr
        (Or.inr ⟨(pendingN wf res x : Int), inv.val x hx, ?_, ?_⟩)
      · omega
      · rw [hLc x]
        omega
  · intro x hx d hd
    rcases List.mem_append.mp hx with hxr | hxa'
    · obtain ⟨hdres, hidx⟩ := inv.ord x hxr d hd
      refine ⟨List.mem_append.mpr (Or.inl hdres), ?_⟩
      rw [List.indexOf_append_of_mem hdres, List.indexOf_append_of_mem hxr]
      exact hidx
    · have hxe : x = a := by simpa using hxa'
      subst hxe
      have h0 : pendingN wf res x = 0 := inv.q0 x (List.mem_cons_self x rest)
      have hdres : d ∈ res := (pendingN_zero_iff.mp h0) d hd
      refine ⟨List.mem_append.mpr (Or.inl hdres), ?_⟩
      rw [List.indexOf_append_of_mem hdres, List.indexOf_append_of_not_mem ha_res]
      have hlt : res.indexOf d < res.length := List.indexOf_lt_length.mpr hdres
      have h2 : List.indexOf x [x] = 0 := by simp
      rw [h2]
      omega

theorem all_done_of_no_ready {wf : List AgentTask} (hnd : (idsOf wf).Nodup)
    (hdeps : ∀ t ∈ wf, ∀ d ∈ t.dependencies, d ∈ idsOf wf)
    (hacyc : ∀ x, ¬ Relation.TransGen (dependsOn wf) x x)
    {res : List String}
    (hstuck : ∀ x ∈ idsOf wf, x ∉ res → pendingN wf res x ≠ 0) :
    ∀ x ∈ idsOf wf, x ∈ res := by
  intro x₀ hx₀
  by_contra hx₀r
  have hnext : ∀ s : {y : String // y ∈ idsOf wf ∧ y ∉ res},
      ∃ z : {y : String // y ∈ idsOf wf ∧ y ∉ res}, dependsOn wf s.1 z.1 := by
    rintro ⟨y, hy, hyr⟩
    have hne := hstuck y hy hyr
    have hnotall : ¬ ∀ d ∈ depsOfF wf y, d ∈ res :=
      fun hall => hne (pendingN_zero_iff.mpr hall)
    push_neg at hnotall
    obtain ⟨d, hd, hdr⟩ := hnotall
    refine ⟨⟨d, depsOfF_mem_ids hnd hdeps hd, hdr⟩, ?_⟩
    rw [dependsOn_eq_edgeF hnd]
    exact hd
  choose f hf using hnext
  set g : Nat → {y : String // y ∈ idsOf wf ∧ y ∉ res} :=
    fun n => f^[n] ⟨x₀, hx₀, hx₀r⟩ with hgdef
  have hstep : ∀ n : Nat, dependsOn wf (g n).1 (g (n + 1)).1 := by
    intro n
    have he : g (n + 1) = f (g n) := Function.iterate_succ_apply' f n _
    rw [he]
    exact hf (g n)
  have htrans : ∀ j i : Nat, i < j →
      Relation.TransGen (dependsOn wf) (g i).1 (g j).1 := by
    intro j
    induction j with
    | zero => intro i h; exact absurd h (Nat.not_lt_zero i)
    | succ m ih =>
      intro i h
      rcases Nat.lt_succ_iff_lt_or_eq.mp h with h' | h'
      · exact Relation.TransGen.tail (ih i h') (hstep m)
      · subst h'
        exact Relation.TransGen.single (hstep i)
  have hN : ∀ n, (idsOf wf).indexOf (g n).1 < (idsOf wf).length :=
    fun n => List.indexOf_lt_length.mpr (g n).2.1
  obtain ⟨i, j, hij, heq⟩ :=
    Fintype.exists_ne_map_eq_of_card_lt
      (fun i : Fin ((idsOf wf).length + 1) =>
        (⟨(idsOf wf).indexOf (g i.1).1, hN i.1⟩ : Fin (idsOf wf).length))
      (by simp only [Fintype.card_fin]; omega)
  have hg : (g i.1).1 = (g j.1).1 := by
    have h1 : (idsOf wf).indexOf (g i.1).1 = (idsOf wf).indexOf (g j.1).1 := by
      simpa using congrArg Fin.val heq
    exact (List.indexOf_inj (g i.1).2.1 (g j.1).2.1).mp h1
  have hne : i.1 ≠ j.1 := fun h => hij (Fin.ext h)
  rcases Nat.lt_or_ge i.1 j.1 with hlt | hge
  · have ht := htrans j.1 i.1 hlt
    rw [← hg] at ht
    exact hacyc _ ht
  · have hlt : j.1 < i.1 := lt_of_le_of_ne hge (Ne.symm hne)
    have ht := htrans i.1 j.1 hlt
    rw [hg] at ht
    exact hacyc _ ht

theorem kahnLoop_heavy {wf : List AgentTask} (hnd : (idsOf wf).Nodup)
    (hdeps : ∀ t ∈ wf, ∀ d ∈ t.dependencies, d ∈ idsOf wf)
    (hacyc : ∀ x, ¬ Relation.TransGen (dependsOn wf) x x) :
    ∀ (deg : List (String × Int)) (queue res : List String),
      KInv wf deg queue res →
      (kahnLoop (buildGraph wf (initGraph wf)) deg queue res).Perm (idsOf wf) ∧
      (∀ x ∈ kahnLoop (buildGraph wf (initGraph wf)) deg queue res,
        ∀ d ∈ depsOfF wf x,
          (kahnLoop (buildGraph wf (initGraph wf)) deg queue res).indexOf d <
            (kahnLoop (buildGraph wf (initGraph wf)) deg queue res).indexOf x) := by
  intro deg₀ q₀ res₀
  refine kahnLoop.induct (buildGraph wf (initGraph wf))
    (fun deg q res => KInv wf deg q res →
      (kahnLoop (buildGraph wf (initGraph wf)) deg q res).Perm (idsOf wf) ∧
      (∀ x ∈ kahnLoop (buildGraph wf (initGraph wf)) deg q res,
        ∀ d ∈ depsOfF wf x,
          (kahnLoop (buildGraph wf (initGraph wf)) deg q res).indexOf d <
            (kahnLoop (buildGraph wf (initGraph wf)) deg q res).indexOf x))
    ?_ ?_ deg₀ q₀ res₀
  · intro deg res inv
    rw [kahnLoop_eq_nil]
    have hall : ∀ x ∈ idsOf wf, x ∈ res := by
      apply all_done_of_no_ready hnd hdeps hacyc
      intro x hx hxr h0
      exact absurd (inv.qcomp x hx hxr h0) (List.not_mem_nil x)
    have hperm : res.Perm (idsOf wf) :=
      (List.subperm_of_subset inv.rnd (fun x hx => inv.rsub x hx)).antisymm
        (List.subperm_of_subset hnd hall)
    refine ⟨hperm, ?_⟩
    intro x hx d hd
    exact (inv.ord x hx d hd).2
  · intro deg res a rest pr ih inv
    rw [kahnLoop_eq_cons]
    exact ih (KInv_step hnd inv)

/-- C2: for every workflow whose tasks and dependency edges form a well-formed
DAG (every dependency names a task of the workflow, no task transitively
depends on itself, all task identifiers distinct), `_topological_sort` returns
(rather than raising) a list that contains each task identifier exactly once
(it is a permutation of the identifiers) and places every task strictly after
all of its declared dependencies. -/
theorem C2_topological_sort_correct {wf : List AgentTask}
    (hnd : (idsOf wf).Nodup)
    (hdeps : ∀ t ∈ wf, ∀ d ∈ t.dependencies, d ∈ idsOf wf)
    (hacyc : ∀ x, ¬ Relation.TransGen (dependsOn wf) x x) :
    ∃ order, topologicalSort wf = .ok order ∧ order.Perm (idsOf wf) ∧
      ∀ t ∈ wf, ∀ d ∈ t.dependencies,
        order.indexOf d < order.indexOf t.agent_id := by
  have hmain := kahnLoop_heavy hnd hdeps hacyc (initDeg wf)
    ((initDeg wf).filterMap (fun p => if p.2 = 0 then some p.1 else none)) []
    (KInv_init hnd)
  obtain ⟨hperm, hord⟩ := hmain
  have hlen : (kahnLoop (buildGraph wf (initGraph wf)) (initDeg wf)
      ((initDeg wf).filterMap (fun p => if p.2 = 0 then some p.1 else none)) []).length
      = wf.length := by
    rw [hperm.length_eq]
    simp [idsOf]
  refine ⟨_, ?_, hperm, ?_⟩
  · rw [topologicalSort_eq_if, if_pos hlen]
  · intro t ht d hd
    have hmem : t.agent_id ∈ kahnLoop (buildGraph wf (initGraph wf)) (initDeg wf)
        ((initDeg wf).filterMap (fun p => if p.2 = 0 then some p.1 else none)) [] :=
      hperm.mem_iff.mpr (List.mem_map.mpr ⟨t, ht, rfl⟩)
    have hd' : d ∈ depsOfF wf t.agent_id := by
      rw [depsOfF_of_mem hnd ht]
      exact hd
    exact hord t.agent_id hmem d hd'

theorem no_self_transGen_of_rank {r : String → String → Prop} (rank : String → Nat)
    (hr : ∀ x y, r x y → rank y < rank x) : ∀ x, ¬ Relation.TransGen r x x := by
  intro x hx
  have h : ∀ a b, Relation.TransGen r a b → rank b < rank a := by
    intro a b hab
    induction hab with
    | single h1 => exact hr _ _ h1
    | tail hab hbc ih => exact lt_trans (hr _ _ hbc) ih
  exact absurd (h x x hx) (lt_irrefl _)

/-- Two-task DAG used as the concrete C2 input: `b` depends on `a`. -/
def wf2w : List AgentTask := [⟨"a", [], []⟩, ⟨"b", ["a"], []⟩]

theorem wf2w_acyclic : ∀ x, ¬ Relation.TransGen (dependsOn wf2w) x x := by
  apply no_self_transGen_of_rank (fun s => if s = "a" then 0 else 1)
  rintro x y ⟨t, ht, rfl, hy⟩
  simp only [wf2w, List.mem_cons, List.not_mem_nil, or_false] at ht
  rcases ht with rfl | rfl
  · cases hy
  · have hya : y = "a" := by simpa using hy
    subst hya
    decide

theorem C2_witness :
    ((idsOf wf2w).Nodup ∧
      (∀ t ∈ wf2w, ∀ d ∈ t.dependencies, d ∈ idsOf wf2w) ∧
      (∀ x, ¬ Relation.TransGen (dependsOn wf2w) x x)) ∧
    (∃ order, topologicalSort wf2w = .ok order ∧ order.Perm (idsOf wf2w) ∧
      ∀ t ∈ wf2w, ∀ d ∈ t.dependencies,
        order.indexOf d < order.indexOf t.agent_id) :=
  ⟨⟨by decide, by decide, wf2w_acyclic⟩,
    C2_topological_sort_correct (by decide) (by decide) wf2w_acyclic⟩

end OrbitOps
